import Mathlib


/-!
Verification of the parallel filesystem utilities (parallel-rm-rf and
parallel-untar): a shallow embedding of the two scripts' data model and
per-worker algorithms, together with theorems settling the specification
claims about them.

Filesystem calls are modelled as oracles (explicit functions giving each
call's outcome), errno values as natural numbers, and the per-worker loops
as explicit state-passing functions returning `Except errno state`.
-/
set_option maxHeartbeats 1000000


/-- Errno value for `EEXIST` (file exists). -/
def EEXIST : Nat := 17

/-- Errno value for `ENOENT` (no such file or directory). -/
def ENOENT : Nat := 2

/-- Errno value for `ENOTEMPTY` (directory not empty). -/
def ENOTEMPTY : Nat := 39

/-- The POSIX path separator, `os.sep`. -/
def os_sep : String := "/"

/-- Model of Python `s.strip(os.sep)`: remove leading and trailing `/`
characters. -/
def stripSep (s : String) : String :=
  String.mk ((((s.data.dropWhile (fun c => c = '/')).reverse.dropWhile
    (fun c => c = '/')).reverse))

/-- Model of Python `os.path.dirname` (posixpath): everything up to the last
`/`, with trailing separators stripped unless the head is all separators. -/
def dirname (p : String) : String :=
  let head := (p.data.reverse.dropWhile (fun c => c ≠ '/')).reverse
  if head.isEmpty ∨ head.all (fun c => c = '/') then String.mk head
  else String.mk ((head.reverse.dropWhile (fun c => c = '/')).reverse)

/-- Model of Python `s.startswith(os.sep)`: the first character is the
separator. -/
def startsWithSep (s : String) : Bool :=
  match s.data with
  | [] => false
  | c :: _ => c = '/'

/-- Model of Python `s.endswith(os.sep)`: the last character is the
separator. -/
def endsWithSep (s : String) : Bool :=
  match s.data.reverse with
  | [] => false
  | c :: _ => c = '/'

/-- Model of Python `os.path.join(a, b)` (posixpath) for a single extra
component. -/
def pjoin (a b : String) : String :=
  if startsWithSep b then b
  else if a = "" ∨ endsWithSep a then a ++ b
  else a ++ os_sep ++ b

namespace PRm

/-!
Model of `parallel-rm-rf.py`.

A directory tree is a list of named entries; `find_subdirs` is the
generator at lines 34-41 of the script, with `os.listdir` returning the
entries in list order, `os.path.islink` true exactly on `symlink` entries
and `os.path.isdir` true on real directories and on symlinks whose target
is a directory (both following the behaviour of the Python calls).
-/
/-- One entry of a directory listing: a real subdirectory with its own
listing, a plain file, or a symbolic link (whose target may or may not
resolve to a directory). -/

inductive Dirent where
  | dir (name : String) (children : List Dirent)
  | file (name : String)
  | symlink (name : String) (targetIsDir : Bool)

mutual

/-- Model of `find_subdirs(d)` from parallel-rm-rf.py lines 34-41: for each
listed entry that is a directory and not a symbolic link, recursively yield
its subdirectories, then yield `d` itself last. -/
def find_subdirs (d : String) (entries : List Dirent) : List String :=
  subdirsList d entries ++ [d]
termination_by (sizeOf entries, 1)

/-- The directories yielded by the `for e in entries` loop of
`find_subdirs`, in loop order: symbolic links and plain files are skipped
(`not os.path.islink(entry_path) and os.path.isdir(entry_path)` fails). -/
def subdirsList (d : String) : List Dirent → List String
  | [] => []
  | Dirent.dir n cs :: rest => find_subdirs (pjoin d n) cs ++ subdirsList d rest
  | Dirent.file _ :: rest => subdirsList d rest
  | Dirent.symlink _ _ :: rest => subdirsList d rest
termination_by l => (sizeOf l, 0)

end

/-- The proposition that `(q, qs)` is the path and listing of a strict
subdirectory (at any depth) of the tree rooted at `(p, es)`, reached by
descending only through real (non-symlink) directory entries. -/
inductive SubdirOf : String → List Dirent → String → List Dirent → Prop where
  | here {p : String} {es : List Dirent} {n : String} {cs : List Dirent}
      (h : Dirent.dir n cs ∈ es) : SubdirOf p es (pjoin p n) cs
  | deeper {p : String} {es : List Dirent} {n : String} {cs : List Dirent}
      {q : String} {qs : List Dirent}
      (h : Dirent.dir n cs ∈ es) (hsub : SubdirOf (pjoin p n) cs q qs) :
      SubdirOf p es q qs

/-- A wellformed entry name as `os.listdir` returns them: nonempty and
containing no path separator. -/
def validName (n : String) : Bool :=
  (!(n == "")) && n.data.all (fun c => !(c == '/'))

/-- All entry names in a directory tree are wellformed. -/
def validList : List Dirent → Bool
  | [] => true
  | Dirent.dir n cs :: rest => validName n && (validList cs && validList rest)
  | Dirent.file n :: rest => validName n && validList rest
  | Dirent.symlink n _ :: rest => validName n && validList rest

/-- The end-of-work check at line 92 of parallel-rm-rf.py: the item just
received over the pipe equals `os.sep`. -/
def isEndSignal (d : String) : Bool := d == os_sep

/-- The spec's example tree `{a/b/c, a/b/d, a/e}`: listing of root `a`. -/
def exChildren : List Dirent := [Dirent.dir ("c") [], Dirent.dir ("d") []]

/-- Top-level listing of the spec's example tree. -/
def exTree : List Dirent := [Dirent.dir ("b") exChildren, Dirent.dir ("e") []]

/-- Concrete tree used by the C6 witness. -/
def exDelTree : List Dirent := [Dirent.dir ("u") [], Dirent.file ("f")]

/-!
Per-item body of `rmThread.run` (lines 96-152): filesystem calls are an
oracle giving each call's outcome (`none` = success for the mutating calls,
`some e` = `OSError` with errno `e`).
-/
/-- Outcome oracle for the filesystem calls a DeleteWorker makes. -/

structure RmFS where
  listdir : String → Except Nat (List String)
  islink : String → Bool
  isdir : String → Bool
  unlink : String → Option Nat
  rmdir : String → Option Nat

/-- The mutable per-worker counters of `rmThread`, extended with the traces
of attempted `os.unlink` and `os.rmdir` calls (in call order) so theorems
can speak about which removals were attempted. -/
structure RmState where
  file_count : Nat
  dir_count : Nat
  dir_remove_collisions : Nat
  dir_remove_nonempty : Nat
  unlinks : List String
  rmdirs : List String
deriving DecidableEq

/-- Counters at worker start (`rmThread.__init__`). -/
def initRm : RmState := ⟨0, 0, 0, 0, [], []⟩

/-- The `for dentry in dir_contents` loop at lines 112-125: skip children
that are directories and not symbolic links; unlink the rest, counting
successes in `file_count`, counting `ENOENT` as a collision and continuing,
and propagating any other failure. -/
def unlinkChildren (fs : RmFS) (d : String) :
    List String → RmState → Except Nat RmState
  | [], s => .ok s
  | c :: rest, s =>
    let de_path := pjoin d c
    if fs.islink de_path = false ∧ fs.isdir de_path = true then
      unlinkChildren fs d rest s
    else
      match fs.unlink de_path with
      | none => unlinkChildren fs d rest
          { s with unlinks := s.unlinks ++ [de_path],
                   file_count := s.file_count + 1 }
      | some e =>
        if e = ENOENT then
          unlinkChildren fs d rest
            { s with unlinks := s.unlinks ++ [de_path],
                     dir_remove_collisions := s.dir_remove_collisions + 1 }
        else .error e

/-- The `while len(d) >= len(topdir)` ascent at lines 137-152, with an
explicit fuel bound (the Python loop has no bound of its own; every theorem
below supplies enough fuel for the iterations it describes): remove `d`,
then its parent, and so on while the candidate is at least as long as the
deletion root; `ENOTEMPTY` stops the ascent as an expected defer, `ENOENT`
stops it as a collision, anything else propagates. -/
def ascend (fs : RmFS) (topdir : String) :
    Nat → String → RmState → Except Nat RmState
  | 0, _, s => .ok s
  | fuel+1, d, s =>
    if d.length < topdir.length then .ok s
    else
      match fs.rmdir d with
      | none => ascend fs topdir fuel (dirname d)
          { s with rmdirs := s.rmdirs ++ [d], dir_count := s.dir_count + 1 }
      | some e =>
        if e = ENOTEMPTY then
          .ok { s with rmdirs := s.rmdirs ++ [d],
                       dir_remove_nonempty := s.dir_remove_nonempty + 1 }
        else if e = ENOENT then
          .ok { s with rmdirs := s.rmdirs ++ [d],
                       dir_remove_collisions := s.dir_remove_collisions + 1 }
        else .error e

/-- One full iteration of the worker loop for a received directory `d`
(lines 96-152): list `d` (ENOENT is a benign collision), clear its
non-directory contents, then ascend. -/
def processItem (fs : RmFS) (topdir d : String) (s : RmState) :
    Except Nat RmState :=
  match fs.listdir d with
  | .error e =>
    if e = ENOENT then
      .ok { s with dir_remove_collisions := s.dir_remove_collisions + 1 }
    else .error e
  | .ok contents =>
    match unlinkChildren fs d contents s with
    | .error e => .error e
    | .ok s1 => ascend fs topdir (d.length + 1) d s1

/-- Iterated `os.path.dirname`. -/
def iterDirname : Nat → String → String
  | 0, d => d
  | k+1, d => iterDirname k (dirname d)

/-- The first `j` candidates of the ascent from `d`: `d`, its parent, its
grandparent, and so on. -/
def attempts : Nat → String → List String
  | 0, _ => []
  | j+1, d => d :: attempts j (dirname d)

/-- Concrete oracle for the C4 witness: both `/t/a/b` and `/t/a` are
removable, `/t` still holds a sibling's share. -/
def c4fs : RmFS where
  listdir := fun _ => .ok []
  islink := fun _ => false
  isdir := fun _ => true
  unlink := fun _ => none
  rmdir := fun p => if p == ("/t") then some ENOTEMPTY else none

/-- The child-skip test at line 114 of parallel-rm-rf.py, as the condition
for attempting `os.unlink`: a child is unlinked unless it is a
non-symlink directory (so every symlink is unlinked, even one resolving to
a directory, and so is every non-directory). -/
def shouldUnlink (fs : RmFS) (d c : String) : Bool :=
  !((!fs.islink (pjoin d c)) && fs.isdir (pjoin d c))

/-- Concrete oracle for the C5 counterexample: the single child `d/s` is a
symbolic link that resolves to a directory. -/
def c5fs : RmFS where
  listdir := fun _ => .ok [("s")]
  islink := fun p => p == ("d/s")
  isdir := fun _ => true
  unlink := fun _ => none
  rmdir := fun _ => some ENOTEMPTY

/-- Concrete oracle for the C5 amended-claim witness: `d/f` is a plain
file, `d/sub` a real directory, `d/s` a symlink resolving to a directory. -/
def c5w : RmFS where
  listdir := fun _ => .ok [("f"), ("sub"), ("s")]
  islink := fun p => p == ("d/s")
  isdir := fun p => p == ("d/sub") || p == ("d/s")
  unlink := fun _ => none
  rmdir := fun _ => some ENOTEMPTY

/-- Model of Python `int(s)` for base-10 string input: optional surrounding
whitespace, an optional sign, then one or more digits; anything else raises
`ValueError` (`none`). -/
def pyInt (s : String) : Option Int :=
  let t := ((s.data.dropWhile Char.isWhitespace).reverse.dropWhile
    Char.isWhitespace).reverse
  let digits := fun (cs : List Char) =>
    cs.foldl (fun n c => n * 10 + (c.toNat - ('0').toNat)) 0
  match t with
  | '-' :: rest =>
    if rest ≠ [] ∧ rest.all Char.isDigit then some (-(digits rest : Int))
    else none
  | '+' :: rest =>
    if rest ≠ [] ∧ rest.all Char.isDigit then some ((digits rest : Int))
    else none
  | rest =>
    if rest ≠ [] ∧ rest.all Char.isDigit then some ((digits rest : Int))
    else none

/-- Outcome of parallel-rm-rf.py's command-line handling. -/
inductive ArgOutcome where
  | ok (topdir : String) (thread_count : Int)
  | usageExit (msg : String)
  | indexError
deriving DecidableEq

/-- Model of parallel-rm-rf.py's argument handling (lines 46-56):
`thread_count = 4`, then `topdir = sys.argv[1]` executes BEFORE any length
check, so a missing argument raises an uncaught IndexError; an explicit
thread-count argument is parsed with `int()`, a `ValueError` calling
`usage(...)`; the `len(sys.argv) < 2` usage branch can only be reached
after `sys.argv[1]` already succeeded, hence never. The later
`os.path.isdir(topdir)` check is outside this model. -/
def parseRmArgs (argv : List String) : ArgOutcome :=
  match argv.get? 1 with
  | none => ArgOutcome.indexError
  | some topdir =>
    if argv.length > 2 then
      match argv.get? 2 with
      | none => ArgOutcome.indexError
      | some a2 =>
        match pyInt a2 with
        | some k => ArgOutcome.ok topdir k
        | none => ArgOutcome.usageExit ("could not parse thread count")
    else if argv.length < 2 then
      ArgOutcome.usageExit ("must supply top-level directory to delete")
    else ArgOutcome.ok topdir 4

end PRm

namespace PUntar

/-!
Model of `parallel-untar.py` (the per-worker `untarThread.run`, lines
91-180).

An archive is a list of `TarEntry` in file order; every worker iterates
the same list.  `archive.extract` outcomes are an oracle: `err i` is the
errno raised by the first extract attempt at stream position `i` (`none`
for success), `err2 i` by the retry a directory-creation collision makes,
and `errD i` by the post-barrier attempt for a deferred link queued at
original position `i`.  `os.path.exists` is the oracle `fsExists`
(evaluated at encounter time).  The barrier itself (lines 163-165 and the
coordinator side) is pure synchronisation: in this single-worker model it
is the boundary between the main pass and the deferred pass.
-/
/-- Kind of a tar archive member. -/

inductive EntryKind where
  | dir
  | file
  | symlink
  | hardlink
deriving DecidableEq

/-- One member of the archive: its name, kind, and (for links) the link
target `linkname`. -/
structure TarEntry where
  name : String
  kind : EntryKind
  linkname : String
deriving DecidableEq

/-- Python `m.isdir()`. -/
def TarEntry.isdir (m : TarEntry) : Bool := m.kind == EntryKind.dir

/-- Python `m.issym()`. -/
def TarEntry.issym (m : TarEntry) : Bool := m.kind == EntryKind.symlink

/-- Python `m.islnk()`. -/
def TarEntry.islnk (m : TarEntry) : Bool := m.kind == EntryKind.hardlink

/-- Observable extraction events of one worker's run, in call order:
`edir i` = `archive.extract` of the directory entry at stream position
`i` (main pass), `efile i` = extract of the non-directory entry at
position `i` (main pass), `edeferred i` = post-barrier extract of the
deferred link queued at position `i`. -/
inductive Ev where
  | edir (i : Nat)
  | efile (i : Nat)
  | edeferred (i : Nat)
deriving DecidableEq

/-- Stream position of an event. -/
def Ev.pos : Ev → Nat
  | .edir i => i
  | .efile i => i
  | .edeferred i => i

/-- Oracle for the outcomes of `archive.extract` calls. -/
structure ExtractOracle where
  err : Nat → Option Nat
  err2 : Nat → Option Nat
  errD : Nat → Option Nat

/-- The oracle under which every extract call succeeds. -/
def noErr : ExtractOracle :=
  { err := fun _ => none, err2 := fun _ => none, errD := fun _ => none }

/-- The per-worker state of `untarThread.run`: the ownership counter
`count`, the owned-directory set `my_dirs` (insertion at the head), the
deferred-link queue `link_queue` (each with its stream position), the
three reported counters, and the trace of extract events. -/
structure UState where
  count : Int
  my_dirs : List String
  link_queue : List (Nat × TarEntry)
  file_count : Nat
  dir_count : Nat
  dir_create_collisions : Nat
  events : List Ev
deriving DecidableEq

/-- Worker state at the top of `run` (counters zero, `count`
initialised to `self.thread_count - 1` at line 96). -/
def initState (tc : Int) : UState :=
  { count := tc - 1, my_dirs := [], link_queue := [], file_count := 0,
    dir_count := 0, dir_create_collisions := 0, events := [] }

/-- The non-directory extract attempt at lines 148-155: record the call,
then `file_count += 1` unless an error is raised; an `OSError` is
swallowed (and the counter still incremented) exactly when it is `EEXIST`
and the member is a symlink, and propagates otherwise. -/
def extractNonDir (oc : ExtractOracle) (i : Nat) (m : TarEntry)
    (s : UState) : Except Nat UState :=
  let s1 := { s with events := s.events ++ [Ev.efile i] }
  match oc.err i with
  | none => .ok { s1 with file_count := s1.file_count + 1 }
  | some e =>
    if e = EEXIST ∧ m.issym = true then
      .ok { s1 with file_count := s1.file_count + 1 }
    else .error e

/-- One iteration of the `for m in archive` loop (lines 97-155) for the
member `m` at stream position `i`.  A directory entry advances the
ownership counter (`count += 1`, wrapping to `0` at `thread_count`) and,
when `count == self.index`, is recorded in `my_dirs` (keyed by
`m.name.strip(os.sep)`) and extracted — an `EEXIST` failure backing off,
counting a creation collision and retrying once.  A non-directory entry is
considered only when `os.path.dirname(m.name)` is in `my_dirs`; a link
(hard or symbolic) whose target does not exist is deferred when the target
is relative, and extracted anyway (dangling) when absolute. -/
def untarStep (tc index : Int) (fsExists : String → Bool)
    (oc : ExtractOracle) (i : Nat) (m : TarEntry) (s : UState) :
    Except Nat UState :=
  if m.kind = EntryKind.dir then
    let stripped_name := stripSep m.name
    let c1 := s.count + 1
    let c2 := if c1 ≥ tc then 0 else c1
    if c2 = index then
      let s1 := { s with count := c2, my_dirs := stripped_name :: s.my_dirs }
      match oc.err i with
      | none => .ok { s1 with events := s1.events ++ [Ev.edir i],
                              dir_count := s1.dir_count + 1 }
      | some e =>
        if e = EEXIST then
          match oc.err2 i with
          | none => .ok { s1 with
              dir_create_collisions := s1.dir_create_collisions + 1,
              events := s1.events ++ [Ev.edir i, Ev.edir i],
              dir_count := s1.dir_count + 1 }
          | some e2 => .error e2
        else .error e
    else .ok { s with count := c2 }
  else
    let dn := dirname m.name
    if dn ∈ s.my_dirs then
      if m.islnk = true ∨ m.issym = true then
        if fsExists m.linkname = false then
          if startsWithSep m.linkname = true then
            extractNonDir oc i m s
          else
            .ok { s with link_queue := s.link_queue ++ [(i, m)] }
        else extractNonDir oc i m s
      else extractNonDir oc i m s
    else .ok s

/-- The main pass (`for m in archive`, lines 97-155), processing the
members `ms` that start at stream position `i`. -/
def runMain (tc index : Int) (fsExists : String → Bool)
    (oc : ExtractOracle) : Nat → List TarEntry → UState → Except Nat UState
  | _, [], s => .ok s
  | i, m :: ms, s =>
    match untarStep tc index fsExists oc i m s with
    | .ok s1 => runMain tc index fsExists oc (i+1) ms s1
    | .error e => .error e

/-- The post-barrier pass (`for m in link_queue`, lines 169-177): extract
each deferred link, tolerating `EEXIST` only for symlinks, incrementing
`file_count` for each queued member not raising a fatal error. -/
def runDeferred (oc : ExtractOracle) :
    List (Nat × TarEntry) → UState → Except Nat UState
  | [], s => .ok s
  | (i, m) :: q, s =>
    let s1 := { s with events := s.events ++ [Ev.edeferred i] }
    match oc.errD i with
    | none => runDeferred oc q { s1 with file_count := s1.file_count + 1 }
    | some e =>
      if e = EEXIST ∧ m.issym = true then
        runDeferred oc q { s1 with file_count := s1.file_count + 1 }
      else .error e

/-- One worker's complete `run` (lines 91-180): the main pass over the
whole archive from the initial state, the barrier, then the deferred-link
pass over the accumulated queue. -/
def runWorker (tc index : Int) (fsExists : String → Bool)
    (oc : ExtractOracle) (entries : List TarEntry) : Except Nat UState :=
  match runMain tc index fsExists oc 0 entries (initState tc) with
  | .ok s => runDeferred oc s.link_queue s
  | .error e => .error e

/-- Whether a member is a directory entry (Bool form of `m.isdir()`). -/
def isDirEntry (m : TarEntry) : Bool :=
  match m.kind with
  | EntryKind.dir => true
  | _ => false

/-- Number of directory entries strictly before position `k` of `ms`. -/
def dirCountBefore (ms : List TarEntry) (k : Nat) : Nat :=
  ((ms.take k).filter isDirEntry).length

/-- Number of directory entries in all of `ms`. -/
def dirsIn (ms : List TarEntry) : Nat := (ms.filter isDirEntry).length

/-- Order of two events in a trace: `a` occurs strictly before `b`. -/
def evBefore (l : List Ev) (a b : Ev) : Prop :=
  ∃ l1 l2 l3, l = l1 ++ a :: (l2 ++ b :: l3)

/-- Archive member fixtures for the witnesses. -/
def entA : TarEntry := { name := "a", kind := EntryKind.dir, linkname := "" }

/-- Directory entry `b`. -/
def entB : TarEntry := { name := "b", kind := EntryKind.dir, linkname := "" }

/-- File entry `a/x`. -/
def entAX : TarEntry :=
  { name := "a/x", kind := EntryKind.file, linkname := "" }

/-- Directory entry `d`. -/
def entD : TarEntry := { name := "d", kind := EntryKind.dir, linkname := "" }

/-- Symlink entry `d/l` with relative, not-yet-existing target `d/t`. -/
def entL : TarEntry :=
  { name := "d/l", kind := EntryKind.symlink, linkname := "d/t" }

/-- Top-level file entry `x` (empty dirname). -/
def entTop : TarEntry :=
  { name := "x", kind := EntryKind.file, linkname := "" }

/-- Symlink member used by the C8 witness. -/
def symEnt : TarEntry :=
  { name := "a/s", kind := EntryKind.symlink, linkname := "t" }

/-- The three-member fixture archive `[a/, b/, a/x]`. -/
def exArch : List TarEntry := [entA, entB, entAX]

/-- `os.path.exists` oracle that finds every target. -/
def allExists : String → Bool := fun _ => true

/-- `os.path.exists` oracle that finds no target. -/
def noneExists : String → Bool := fun _ => false

/-- Oracle whose extract calls all fail with `EEXIST`. -/
def eexOc : ExtractOracle :=
  { err := fun _ => some EEXIST, err2 := fun _ => none,
    errD := fun _ => some EEXIST }

/-- Final state of worker 1 of 2 on `exArch`. -/
def w1state : UState :=
  { count := 1, my_dirs := ["b"], link_queue := [], file_count := 0,
    dir_count := 1, dir_create_collisions := 0, events := [Ev.edir 1] }

/-- State of worker 0 of 2 after the first two members of `exArch`. -/
def w0mid : UState :=
  { count := 1, my_dirs := ["a"], link_queue := [], file_count := 0,
    dir_count := 1, dir_create_collisions := 0, events := [Ev.edir 0] }

/-- Final state of worker 0 of 2 on `exArch`. -/
def w0state : UState :=
  { count := 1, my_dirs := ["a"], link_queue := [], file_count := 1,
    dir_count := 1, dir_create_collisions := 0,
    events := [Ev.edir 0, Ev.efile 2] }

/-- State of the single worker after the first member of `[d/, d/l]`. -/
def w9mid : UState :=
  { count := 0, my_dirs := ["d"], link_queue := [], file_count := 0,
    dir_count := 1, dir_create_collisions := 0, events := [Ev.edir 0] }

/-- Final state of the single worker on `[d/, d/l]`. -/
def w9state : UState :=
  { count := 0, my_dirs := ["d"], link_queue := [(1, entL)], file_count := 1,
    dir_count := 1, dir_create_collisions := 0,
    events := [Ev.edir 0, Ev.edeferred 1] }

/-- State of the single worker after the first member of `[d/, x]`, which
is also its final state. -/
def w10state : UState :=
  { count := 0, my_dirs := ["d"], link_queue := [], file_count := 0,
    dir_count := 1, dir_create_collisions := 0, events := [Ev.edir 0] }

end PUntar

namespace PRm

@[simp] theorem find_subdirs_def (d : String) (es : List Dirent) :
    find_subdirs d es = subdirsList d es ++ [d] := by
  rw [find_subdirs]

@[simp] theorem subdirsList_nil (d : String) : subdirsList d [] = [] := by
  rw [subdirsList]

@[simp] theorem subdirsList_dir (d n : String) (cs rest : List Dirent) :
    subdirsList d (Dirent.dir n cs :: rest)
      = find_subdirs (pjoin d n) cs ++ subdirsList d rest := by
  rw [subdirsList]

@[simp] theorem subdirsList_file (d n : String) (rest : List Dirent) :
    subdirsList d (Dirent.file n :: rest) = subdirsList d rest := by
  rw [subdirsList]

@[simp] theorem subdirsList_symlink (d n : String) (b : Bool)
    (rest : List Dirent) :
    subdirsList d (Dirent.symlink n b :: rest) = subdirsList d rest := by
  rw [subdirsList]

theorem subdirsList_append (d : String) (xs ys : List Dirent) :
    subdirsList d (xs ++ ys) = subdirsList d xs ++ subdirsList d ys := by
  induction xs with
  | nil => simp
  | cons e rest ih => cases e <;> simp [ih]

theorem subdir_block {p : String} {es : List Dirent} {q : String}
    {qs : List Dirent} (h : SubdirOf p es q qs) :
    ∃ l1 l2, find_subdirs p es = l1 ++ (find_subdirs q qs ++ (l2 ++ [p])) := by
  induction h with
  | @here p1 es1 n cs hmem =>
    obtain ⟨s, t, rfl⟩ := List.append_of_mem hmem
    refine ⟨subdirsList p1 s, subdirsList p1 t, ?_⟩
    simp [subdirsList_append]
  | @deeper p1 es1 n cs q1 qs1 hmem _ ih =>
    obtain ⟨s, t, rfl⟩ := List.append_of_mem hmem
    obtain ⟨m1, m2, hm⟩ := ih
    refine ⟨subdirsList p1 s ++ m1, m2 ++ ([pjoin p1 n] ++ subdirsList p1 t), ?_⟩
    simp only [find_subdirs_def] at hm ⊢
    rw [subdirsList_append, subdirsList_dir]
    simp only [find_subdirs_def]
    rw [hm]
    simp

@[simp] theorem validList_nil : validList [] = true := by rw [validList]

@[simp] theorem validList_dir (n : String) (cs rest : List Dirent) :
    validList (Dirent.dir n cs :: rest)
      = (validName n && (validList cs && validList rest)) := by
  rw [validList]

@[simp] theorem validList_file (n : String) (rest : List Dirent) :
    validList (Dirent.file n :: rest) = (validName n && validList rest) := by
  rw [validList]

@[simp] theorem validList_symlink (n : String) (b : Bool)
    (rest : List Dirent) :
    validList (Dirent.symlink n b :: rest)
      = (validName n && validList rest) := by
  rw [validList]

theorem pjoin_ne_sep {a b : String} (hb : validName b = true) :
    pjoin a b ≠ os_sep := by
  have hdata : b.data ≠ [] ∧ ∀ c ∈ b.data, ¬(c = '/') := by
    simp only [validName, Bool.and_eq_true, Bool.not_eq_true', beq_eq_false_iff_ne,
      List.all_eq_true] at hb
    refine ⟨fun h => hb.1 (String.ext ?_), fun c hc => by simpa using hb.2 c hc⟩
    simpa using h
  obtain ⟨c, t, hct⟩ : ∃ c t, b.data = c :: t := by
    cases hbd : b.data with
    | nil => exact absurd hbd hdata.1
    | cons c t => exact ⟨c, t, rfl⟩
  have hc : ¬(c = '/') := hdata.2 c (by rw [hct]; exact List.mem_cons_self c t)
  have hsw : startsWithSep b = false := by
    rw [startsWithSep, hct]
    simpa using hc
  rw [pjoin, hsw]
  simp only [Bool.false_eq_true, if_false]
  intro heq
  have hsepd : os_sep.data = ['/'] := by decide
  split at heq
  · have hd := congrArg String.data heq
    simp only [String.data_append] at hd
    rw [hct, hsepd] at hd
    cases hda : a.data with
    | nil =>
      rw [hda] at hd
      simp at hd
      exact hc hd.1
    | cons x xs =>
      rw [hda] at hd
      simp at hd
  · have hd := congrArg String.data heq
    simp only [String.data_append] at hd
    have hlen := congrArg List.length hd
    rw [hct, hsepd] at hlen
    simp at hlen
    omega

theorem mem_find_subdirs_shape :
    ∀ (N : Nat) (p q : String) (es : List Dirent), sizeOf es ≤ N →
      validList es = true → q ∈ find_subdirs p es →
      q = p ∨ ∃ a b, validName b = true ∧ q = pjoin a b := by
  intro N
  induction N with
  | zero =>
    intro p q es hsz
    exact absurd hsz (by cases es <;> simp_arith)
  | succ N ih =>
    intro p q es hsz hv hq
    match es with
    | [] =>
      simp at hq
      left; exact hq
    | Dirent.dir n cs :: rest =>
      simp only [validList_dir, Bool.and_eq_true] at hv
      simp only [find_subdirs_def, subdirsList_dir, List.append_assoc,
        List.mem_append, List.mem_singleton] at hq
      simp only [List.cons.sizeOf_spec, Dirent.dir.sizeOf_spec] at hsz
      rcases hq with hq | hq | hq | hq
      · have hq' : q ∈ find_subdirs (pjoin p n) cs := by
          simp only [find_subdirs_def, List.mem_append]
          left; exact hq
        rcases ih (pjoin p n) q cs (by omega) hv.2.1 hq' with h | h
        · right; exact ⟨p, n, hv.1, h⟩
        · right; exact h
      · right; exact ⟨p, n, hv.1, hq⟩
      · have hq' : q ∈ find_subdirs p rest := by
          simp only [find_subdirs_def, List.mem_append]
          left; exact hq
        exact ih p q rest (by omega) hv.2.2 hq'
      · left; exact hq
    | Dirent.file n :: rest =>
      simp only [validList_file, Bool.and_eq_true] at hv
      simp only [find_subdirs_def, subdirsList_file, List.mem_append,
        List.mem_singleton] at hq
      simp only [List.cons.sizeOf_spec] at hsz
      rcases hq with hq | hq
      · have hq' : q ∈ find_subdirs p rest := by
          simp only [find_subdirs_def, List.mem_append]
          left; exact hq
        exact ih p q rest (by omega) hv.2 hq'
      · left; exact hq
    | Dirent.symlink n b :: rest =>
      simp only [validList_symlink, Bool.and_eq_true] at hv
      simp only [find_subdirs_def, subdirsList_symlink, List.mem_append,
        List.mem_singleton] at hq
      simp only [List.cons.sizeOf_spec] at hsz
      rcases hq with hq | hq
      · have hq' : q ∈ find_subdirs p rest := by
          simp only [find_subdirs_def, List.mem_append]
          left; exact hq
        exact ih p q rest (by omega) hv.2 hq'
      · left; exact hq

/-- C2: `find_subdirs(root)` yields in post-order: the root is yielded last;
every strict subdirectory `(q, qs)` of the tree is yielded as the final
element of its own contiguous block `find_subdirs q qs`, which occurs in
full (hence with all of that subdirectory's descendant directories) strictly
before the root's final yield — applying the second conjunct at `(q, qs)`
itself places every descendant of `q` strictly before `q`'s yield; and a
symbolic link entry (whether or not it resolves to a directory) is never
descended into and contributes no yielded directory at all. -/
theorem find_subdirs_postorder (p : String) (es : List Dirent) :
    (∃ l, find_subdirs p es = l ++ [p]) ∧
    (∀ q qs, SubdirOf p es q qs →
      ∃ l1 l2, find_subdirs p es = l1 ++ (find_subdirs q qs ++ (l2 ++ [p]))) ∧
    (∀ xs n b ys, find_subdirs p (xs ++ Dirent.symlink n b :: ys)
        = find_subdirs p (xs ++ ys)) :=
  ⟨⟨subdirsList p es, by simp⟩,
   fun _ _ h => subdir_block h,
   fun xs n b ys => by simp [subdirsList_append]⟩

/-- Witness for C2 on the spec's example tree: `a/b` is a subdirectory of
`a`, its block (containing `a/b/c` and `a/b/d`) occurs before the final
yield of `a`, and the concrete yield order is `c, d, b, e, a`. -/
theorem find_subdirs_postorder_witness :
    SubdirOf ("a") exTree (pjoin ("a") ("b")) exChildren ∧
    (∃ l1 l2, find_subdirs ("a") exTree
        = l1 ++ (find_subdirs (pjoin ("a") ("b")) exChildren ++ (l2 ++ ["a"]))) ∧
    find_subdirs ("a") exTree = ["a/b/c", "a/b/d", "a/b", "a/e", "a"] := by
  have hmem : Dirent.dir ("b") exChildren ∈ exTree := List.mem_cons_self _ _
  have hsub : SubdirOf ("a") exTree (pjoin ("a") ("b")) exChildren :=
    SubdirOf.here hmem
  exact ⟨hsub, (find_subdirs_postorder ("a") exTree).2.1 _ _ hsub,
    by simp [exTree, exChildren, pjoin, os_sep, startsWithSep, endsWithSep]⟩

/-- C6 counterexample: the deletion root `/` is a directory the tool
accepts, yet the walker's final work item over it is exactly the reserved
sentinel `os.sep`, which the worker's end-of-work check accepts. -/
theorem sentinel_collides_at_root :
    os_sep ∈ find_subdirs os_sep [] ∧ isEndSignal os_sep = true := by
  constructor
  · simp
  · decide

/-- C6 (amended): for every accepted deletion root other than `/` itself,
and every tree whose entry names are as `os.listdir` returns them
(nonempty, no separator), no work item produced by the walker equals the
reserved sentinel, so no worker's end-of-work check fires on a real path. -/
theorem sentinel_fresh_for_nonroot_target (p : String) (es : List Dirent)
    (hp : p ≠ os_sep) (hv : validList es = true) :
    ∀ q ∈ find_subdirs p es, isEndSignal q = false := by
  intro q hq
  have h := mem_find_subdirs_shape (sizeOf es) p q es (le_refl _) hv hq
  have hne : q ≠ os_sep := by
    rcases h with rfl | ⟨a, b, hb, rfl⟩
    · exact hp
    · exact pjoin_ne_sep hb
  simp only [isEndSignal, beq_eq_false_iff_ne, ne_eq]
  exact hne

/-- Witness for the amended C6 at the concrete root `/tmp/x`. -/
theorem sentinel_fresh_witness :
    ("/tmp/x" : String) ≠ os_sep ∧ validList exDelTree = true ∧
    ∀ q ∈ find_subdirs ("/tmp/x") exDelTree, isEndSignal q = false :=
  ⟨by decide, by simp [exDelTree, validName],
   sentinel_fresh_for_nonroot_target ("/tmp/x") exDelTree (by decide)
     (by simp [exDelTree, validName])⟩

/-- C4: after clearing a directory's contents the worker attempts to remove
`d`, then each successive parent, stopping the ascent as soon as the
candidate path is shorter than the deletion root; each successful removal
increments `dir_count` and the ascent continues; an `ENOTEMPTY` failure
increments `dir_remove_nonempty` and stops; an `ENOENT` failure increments
`dir_remove_collisions` and stops; any other failure propagates. Here `j`
successes happen first (hypothesis `hchain`), and the conclusion describes
each possible way the ascent then ends. -/
theorem ascend_ancestor_collapse (fs : RmFS) (topdir : String) :
    ∀ (j fuel : Nat) (d : String) (s : RmState), j < fuel →
    (∀ k, k < j → topdir.length ≤ (iterDirname k d).length ∧
        fs.rmdir (iterDirname k d) = none) →
    (((iterDirname j d).length < topdir.length →
        ascend fs topdir fuel d s
          = .ok { s with dir_count := s.dir_count + j,
                         rmdirs := s.rmdirs ++ attempts j d }) ∧
     (topdir.length ≤ (iterDirname j d).length →
       (fs.rmdir (iterDirname j d) = some ENOTEMPTY →
          ascend fs topdir fuel d s
            = .ok { s with dir_count := s.dir_count + j,
                           dir_remove_nonempty := s.dir_remove_nonempty + 1,
                           rmdirs := s.rmdirs ++ attempts (j+1) d }) ∧
       (fs.rmdir (iterDirname j d) = some ENOENT →
          ascend fs topdir fuel d s
            = .ok { s with dir_count := s.dir_count + j,
                           dir_remove_collisions := s.dir_remove_collisions + 1,
                           rmdirs := s.rmdirs ++ attempts (j+1) d }) ∧
       (∀ e, fs.rmdir (iterDirname j d) = some e → e ≠ ENOTEMPTY →
          e ≠ ENOENT → ascend fs topdir fuel d s = .error e))) := by
  intro j
  induction j with
  | zero =>
    intro fuel d s hfuel hchain
    obtain ⟨fuel, rfl⟩ : ∃ f, fuel = f + 1 := ⟨fuel - 1, by omega⟩
    refine ⟨fun hlt => ?_, fun hge => ⟨fun hne => ?_, fun hent => ?_,
      fun e he hne1 hne2 => ?_⟩⟩
    · rw [ascend, if_pos (by simpa [iterDirname] using hlt)]
      simp [attempts]
    · rw [ascend, if_neg (by simpa [iterDirname, Nat.not_lt] using hge)]
      simp only [iterDirname] at hne
      simp [hne, attempts]
    · rw [ascend, if_neg (by simpa [iterDirname, Nat.not_lt] using hge)]
      simp only [iterDirname] at hent
      simp [hent, attempts, ENOENT, ENOTEMPTY]
    · rw [ascend, if_neg (by simpa [iterDirname, Nat.not_lt] using hge)]
      simp only [iterDirname] at he
      simp [he, hne1, hne2]
  | succ j ih =>
    intro fuel d s hfuel hchain
    obtain ⟨fuel, rfl⟩ : ∃ f, fuel = f + 1 := ⟨fuel - 1, by omega⟩
    have h0 := hchain 0 (by omega)
    simp only [iterDirname] at h0
    have hstep : ascend fs topdir (fuel + 1) d s
        = ascend fs topdir fuel (dirname d)
            { s with rmdirs := s.rmdirs ++ [d],
                     dir_count := s.dir_count + 1 } := by
      rw [ascend, if_neg (by omega), h0.2]
    have hchain' : ∀ k, k < j → topdir.length ≤ (iterDirname k (dirname d)).length ∧
        fs.rmdir (iterDirname k (dirname d)) = none := by
      intro k hk
      have := hchain (k+1) (by omega)
      simpa [iterDirname] using this
    have ih' := ih fuel (dirname d)
      { s with rmdirs := s.rmdirs ++ [d], dir_count := s.dir_count + 1 }
      (by omega) hchain'
    have hiter : ∀ m, iterDirname m (dirname d) = iterDirname (m+1) d := by
      intro m
      rfl
    obtain ⟨fc, dc, col, nem, ul, rd⟩ := s
    refine ⟨fun hlt => ?_, fun hge => ⟨fun hne => ?_, fun hent => ?_,
      fun e he hne1 hne2 => ?_⟩⟩
    · rw [hstep, ih'.1 (by simpa [hiter] using hlt)]
      simp [attempts, List.append_assoc]
      omega
    · rw [hstep, ((ih'.2 (by simpa [hiter] using hge)).1 (by simpa [hiter] using hne))]
      simp [attempts, List.append_assoc]
      omega
    · rw [hstep, ((ih'.2 (by simpa [hiter] using hge)).2.1 (by simpa [hiter] using hent))]
      simp [attempts, List.append_assoc]
      omega
    · rw [hstep, ((ih'.2 (by simpa [hiter] using hge)).2.2 e (by simpa [hiter] using he) hne1 hne2)]

/-- Witness for C4: ascending from `/t/a/b` under root `/t` removes two
directories, then defers on the non-empty root, recording exactly the three
attempted candidates. -/
theorem ascend_ancestor_collapse_witness :
    (∀ k, k < 2 → ("/t" : String).length ≤ (iterDirname k ("/t/a/b")).length ∧
        c4fs.rmdir (iterDirname k ("/t/a/b")) = none) ∧
    ("/t" : String).length ≤ (iterDirname 2 ("/t/a/b")).length ∧
    c4fs.rmdir (iterDirname 2 ("/t/a/b")) = some ENOTEMPTY ∧
    ascend c4fs ("/t") 9 ("/t/a/b") initRm
      = .ok { initRm with
                dir_count := initRm.dir_count + 2,
                dir_remove_nonempty := initRm.dir_remove_nonempty + 1,
                rmdirs := initRm.rmdirs ++ attempts 3 ("/t/a/b") } :=
  ⟨by decide, by decide, by decide,
   ((ascend_ancestor_collapse c4fs ("/t") 2 9 ("/t/a/b") initRm (by omega)
      (by decide)).2 (by decide)).1 (by decide)⟩

theorem shouldUnlink_true_iff (fs : RmFS) (d c : String) :
    shouldUnlink fs d c = true
      ↔ ¬(fs.islink (pjoin d c) = false ∧ fs.isdir (pjoin d c) = true) := by
  rw [shouldUnlink]
  cases hl : fs.islink (pjoin d c) <;> cases hd : fs.isdir (pjoin d c) <;> simp

theorem shouldUnlink_false_iff (fs : RmFS) (d c : String) :
    shouldUnlink fs d c = false
      ↔ (fs.islink (pjoin d c) = false ∧ fs.isdir (pjoin d c) = true) := by
  rw [shouldUnlink]
  cases hl : fs.islink (pjoin d c) <;> cases hd : fs.isdir (pjoin d c) <;> simp

/-- C5 (amended): when processing a directory's listing, the worker
attempts `os.unlink` on exactly the direct children that are not
non-symlink directories — i.e. every child that is a symlink (even one
resolving to a directory) or not a directory — incrementing `file_count`
on each success; an `ENOENT` failure increments the collision counter and
processing continues with the next child; any other failure propagates. -/
theorem unlinkChildren_cons_attempt (fs : RmFS) (d c0 : String)
    (rest : List String) (s : RmState)
    (hsk : shouldUnlink fs d c0 = true) :
    unlinkChildren fs d (c0 :: rest) s =
      match fs.unlink (pjoin d c0) with
      | none => unlinkChildren fs d rest
          { s with unlinks := s.unlinks ++ [pjoin d c0],
                   file_count := s.file_count + 1 }
      | some e =>
        if e = ENOENT then
          unlinkChildren fs d rest
            { s with unlinks := s.unlinks ++ [pjoin d c0],
                     dir_remove_collisions := s.dir_remove_collisions + 1 }
        else .error e := by
  rw [unlinkChildren, if_neg ((shouldUnlink_true_iff fs d c0).mp hsk)]

theorem unlinkChildren_cons_skip (fs : RmFS) (d c0 : String)
    (rest : List String) (s : RmState)
    (hsk : shouldUnlink fs d c0 = false) :
    unlinkChildren fs d (c0 :: rest) s = unlinkChildren fs d rest s := by
  rw [unlinkChildren, if_pos ((shouldUnlink_false_iff fs d c0).mp hsk)]

/-- C5 (amended): when processing a directory's listing, the worker
attempts `os.unlink` on exactly the direct children that are not
non-symlink directories — i.e. every child that is a symlink (even one
resolving to a directory) or not a directory — incrementing `file_count`
on each success; an `ENOENT` failure increments the collision counter and
processing continues with the next child; any other failure propagates. -/
theorem unlink_children_behavior (fs : RmFS) (d : String) :
    ∀ (contents : List String) (s : RmState),
    ((∀ c ∈ contents, shouldUnlink fs d c = true →
        fs.unlink (pjoin d c) = none ∨ fs.unlink (pjoin d c) = some ENOENT) →
      unlinkChildren fs d contents s = .ok
        { s with
          unlinks := s.unlinks
            ++ (contents.filter (shouldUnlink fs d)).map (pjoin d),
          file_count := s.file_count +
            ((contents.filter (shouldUnlink fs d)).map (pjoin d)).countP
              (fun p => (fs.unlink p).isNone),
          dir_remove_collisions := s.dir_remove_collisions +
            ((contents.filter (shouldUnlink fs d)).map (pjoin d)).countP
              (fun p => fs.unlink p == some ENOENT) }) ∧
    (∀ pre c post e, contents = pre ++ c :: post →
      (∀ c1 ∈ pre, shouldUnlink fs d c1 = true →
          fs.unlink (pjoin d c1) = none ∨ fs.unlink (pjoin d c1) = some ENOENT) →
      shouldUnlink fs d c = true → fs.unlink (pjoin d c) = some e →
      e ≠ ENOENT → unlinkChildren fs d contents s = .error e) := by
  intro contents
  induction contents with
  | nil =>
    intro s
    constructor
    · intro _
      simp [unlinkChildren]
    · intro pre c post e hc _ _ _ _
      exact absurd hc (by simp)
  | cons c0 rest ih =>
    intro s
    constructor
    · intro hben
      cases hsk : shouldUnlink fs d c0 with
      | false =>
        rw [unlinkChildren_cons_skip fs d c0 rest s hsk,
          (ih s).1 (fun c hc hs => hben c (List.mem_cons_of_mem c0 hc) hs)]
        simp [List.filter_cons, hsk]
      | true =>
        obtain ⟨fc, dc, col, nem, ul, rd⟩ := s
        rcases hben c0 (List.mem_cons_self c0 rest) hsk with hun | hun
        · rw [unlinkChildren_cons_attempt fs d c0 rest _ hsk]
          simp only [hun]
          rw [(ih _).1 (fun c hc hs => hben c (List.mem_cons_of_mem c0 hc) hs)]
          simp [List.filter_cons, hsk, List.countP_cons, hun]
          omega
        · rw [unlinkChildren_cons_attempt fs d c0 rest _ hsk]
          simp only [hun, if_pos rfl]
          rw [(ih _).1 (fun c hc hs => hben c (List.mem_cons_of_mem c0 hc) hs)]
          simp [List.filter_cons, hsk, List.countP_cons, hun]
          omega
    · intro pre c post e hc hpre hskc hunc hene
      cases pre with
      | nil =>
        simp only [List.nil_append] at hc
        injection hc with h1 h2
        rw [h1, h2, unlinkChildren_cons_attempt fs d c post s hskc]
        simp only [hunc]
        rw [if_neg hene]
      | cons p0 ptail =>
        simp only [List.cons_append] at hc
        injection hc with h1 h2
        subst h1
        cases hskp : shouldUnlink fs d c0 with
        | false =>
          rw [unlinkChildren_cons_skip fs d c0 rest s hskp]
          exact (ih s).2 ptail c post e h2
            (fun c1 hc1 hs1 => hpre c1 (List.mem_cons_of_mem c0 hc1) hs1)
            hskc hunc hene
        | true =>
          rcases hpre c0 (List.mem_cons_self c0 ptail) hskp with hun | hun
          · rw [unlinkChildren_cons_attempt fs d c0 rest s hskp]
            simp only [hun]
            exact (ih _).2 ptail c post e h2
              (fun c1 hc1 hs1 => hpre c1 (List.mem_cons_of_mem c0 hc1) hs1)
              hskc hunc hene
          · rw [unlinkChildren_cons_attempt fs d c0 rest s hskp]
            simp only [hun, if_pos rfl]
            exact (ih _).2 ptail c post e h2
              (fun c1 hc1 hs1 => hpre c1 (List.mem_cons_of_mem c0 hc1) hs1)
              hskc hunc hene

/-- Witness for the amended C5: a listing with a file, a real directory
and a dir-symlink: the file and the symlink are unlinked, the directory is
skipped. -/
theorem unlink_children_behavior_witness :
    (∀ c ∈ [("f"), ("sub"), ("s")], shouldUnlink c5w ("d") c = true →
        c5w.unlink (pjoin ("d") c) = none
          ∨ c5w.unlink (pjoin ("d") c) = some ENOENT) ∧
    unlinkChildren c5w ("d") [("f"), ("sub"), ("s")] initRm = .ok
      { initRm with
        unlinks := initRm.unlinks
          ++ ([("f"), ("sub"), ("s")].filter (shouldUnlink c5w ("d"))).map (pjoin ("d")),
        file_count := initRm.file_count +
          (([("f"), ("sub"), ("s")].filter (shouldUnlink c5w ("d"))).map (pjoin ("d"))).countP
            (fun p => (c5w.unlink p).isNone),
        dir_remove_collisions := initRm.dir_remove_collisions +
          (([("f"), ("sub"), ("s")].filter (shouldUnlink c5w ("d"))).map (pjoin ("d"))).countP
            (fun p => c5w.unlink p == some ENOENT) } :=
  ⟨by decide,
   (unlink_children_behavior c5w ("d") [("f"), ("sub"), ("s")] initRm).1 (by decide)⟩

/-- C5 counterexample: a direct child that is a symbolic link resolving to
a directory (`islink` and `isdir` both true) IS unlinked by the worker —
the unlink trace contains it and the file counter counts it — whereas the
claim says exactly the children that are neither directories nor
directory-resolving symlinks are unlinked. -/
theorem unlink_dirsymlink_counterexample :
    c5fs.islink (pjoin ("d") ("s")) = true ∧
    c5fs.isdir (pjoin ("d") ("s")) = true ∧
    unlinkChildren c5fs ("d") [("s")] initRm
      = .ok { initRm with file_count := 1, unlinks := [pjoin ("d") ("s")] } := by
  refine ⟨by decide, rfl, ?_⟩
  rw [unlinkChildren_cons_attempt c5fs ("d") ("s") [] initRm (by decide)]
  have hu : c5fs.unlink (pjoin ("d") ("s")) = none := rfl
  simp only [hu]
  simp [unlinkChildren, initRm]

/-- C7 (code bug): invoking the deletion tool with the directory argument
absent crashes with an uncaught IndexError at `topdir = sys.argv[1]`,
reached before the script's own `usage('must supply top-level directory to
delete')` branch — which is therefore unreachable — so no usage message is
printed; and a thread-count argument parsing as a non-positive integer
(here `-3`) is accepted with no usage error, though the claim requires a
positive integer. -/
theorem rm_args_divergence :
    parseRmArgs [("parallel-rm-rf.py")] = ArgOutcome.indexError ∧
    parseRmArgs [("parallel-rm-rf.py"), ("dir"), ("-3")]
      = ArgOutcome.ok ("dir") (-3) :=
  ⟨rfl, by decide⟩

end PRm

namespace PUntar

theorem isDirEntry_iff (m : TarEntry) :
    isDirEntry m = true ↔ m.kind = EntryKind.dir := by
  cases hk : m.kind <;> simp [isDirEntry, hk]

theorem isDirEntry_false_iff (m : TarEntry) :
    isDirEntry m = false ↔ ¬(m.kind = EntryKind.dir) := by
  cases hk : m.kind <;> simp [isDirEntry, hk]

theorem emod_bounds (tc : Int) (htc : 1 ≤ tc) (a : Int) :
    0 ≤ a % tc ∧ a % tc < tc :=
  ⟨Int.emod_nonneg a (by omega), Int.emod_lt_of_pos a (by omega)⟩

theorem count_next (tc : Int) (htc : 1 ≤ tc) (d0 : Nat) :
    (if ((d0 : Int) + tc - 1) % tc + 1 ≥ tc then 0
     else ((d0 : Int) + tc - 1) % tc + 1)
      = (((d0 + 1 : Nat) : Int) + tc - 1) % tc := by
  obtain ⟨h0, h1⟩ := emod_bounds tc htc ((d0 : Int) + tc - 1)
  have harg : ((d0 + 1 : Nat) : Int) + tc - 1 = ((d0 : Int) + tc - 1) + 1 := by
    push_cast
    ring
  have hsplit : ((d0 : Int) + tc - 1 + 1) % tc
      = (((d0 : Int) + tc - 1) % tc + 1) % tc := (Int.emod_add_emod _ _ _).symm
  rw [harg, hsplit]
  by_cases hge : ((d0 : Int) + tc - 1) % tc + 1 ≥ tc
  · rw [if_pos hge]
    have heq : ((d0 : Int) + tc - 1) % tc + 1 = tc := by omega
    rw [heq, Int.emod_self]
  · rw [if_neg hge]
    exact (Int.emod_eq_of_lt (by omega) (by omega)).symm

theorem count_next_owned (tc : Int) (htc : 1 ≤ tc) (d0 : Nat) :
    (((d0 + 1 : Nat) : Int) + tc - 1) % tc = (d0 : Int) % tc := by
  have harg : ((d0 + 1 : Nat) : Int) + tc - 1 = (d0 : Int) + tc * 1 := by
    push_cast
    ring
  rw [harg, Int.add_mul_emod_self_left]

theorem extractNonDir_noErr (i : Nat) (m : TarEntry) (s : UState) :
    extractNonDir noErr i m s
      = .ok { s with events := s.events ++ [Ev.efile i],
                     file_count := s.file_count + 1 } := by
  simp [extractNonDir, noErr]

/-- Exhaustive description of one main-pass step under the no-failure
oracle, given the ownership-counter invariant. -/
theorem untarStep_cases (tc w : Int) (htc : 1 ≤ tc) (ex : String → Bool)
    (i : Nat) (m : TarEntry) (s0 : UState) (d0 : Nat)
    (hc : s0.count = ((d0 : Int) + tc - 1) % tc) :
    (isDirEntry m = true ∧ ((d0 : Int) % tc = w) ∧
      untarStep tc w ex noErr i m s0 = .ok
        { s0 with count := (((d0 + 1 : Nat) : Int) + tc - 1) % tc,
                  my_dirs := stripSep m.name :: s0.my_dirs,
                  events := s0.events ++ [Ev.edir i],
                  dir_count := s0.dir_count + 1 }) ∨
    (isDirEntry m = true ∧ ¬((d0 : Int) % tc = w) ∧
      untarStep tc w ex noErr i m s0 = .ok
        { s0 with count := (((d0 + 1 : Nat) : Int) + tc - 1) % tc }) ∨
    (isDirEntry m = false ∧ dirname m.name ∉ s0.my_dirs ∧
      untarStep tc w ex noErr i m s0 = .ok s0) ∨
    (isDirEntry m = false ∧ dirname m.name ∈ s0.my_dirs ∧
      ((m.islnk = true ∨ m.issym = true) ∧ ex m.linkname = false ∧
        startsWithSep m.linkname = false) ∧
      untarStep tc w ex noErr i m s0 = .ok
        { s0 with link_queue := s0.link_queue ++ [(i, m)] }) ∨
    (isDirEntry m = false ∧ dirname m.name ∈ s0.my_dirs ∧
      ¬((m.islnk = true ∨ m.issym = true) ∧ ex m.linkname = false ∧
        startsWithSep m.linkname = false) ∧
      untarStep tc w ex noErr i m s0 = .ok
        { s0 with events := s0.events ++ [Ev.efile i],
                  file_count := s0.file_count + 1 }) := by
  by_cases hk : m.kind = EntryKind.dir
  · have hkd : isDirEntry m = true := (isDirEntry_iff m).mpr hk
    have hc2 : (if s0.count + 1 ≥ tc then 0 else s0.count + 1)
        = (((d0 + 1 : Nat) : Int) + tc - 1) % tc := by
      rw [hc]
      exact count_next tc htc d0
    by_cases hw : ((d0 : Int) % tc = w)
    · left
      refine ⟨hkd, hw, ?_⟩
      have hown : (((d0 + 1 : Nat) : Int) + tc - 1) % tc = w := by
        rw [count_next_owned tc htc d0]
        exact hw
      simp only [untarStep, if_pos hk, hc2, noErr]
      rw [if_pos hown]
    · right; left
      refine ⟨hkd, hw, ?_⟩
      have hown : ¬((((d0 + 1 : Nat) : Int) + tc - 1) % tc = w) := by
        rw [count_next_owned tc htc d0]
        exact hw
      simp only [untarStep, if_pos hk, hc2, noErr]
      rw [if_neg hown]
  · have hkd : isDirEntry m = false := (isDirEntry_false_iff m).mpr hk
    by_cases hin : dirname m.name ∈ s0.my_dirs
    · by_cases hlink : m.islnk = true ∨ m.issym = true
      · by_cases hex : ex m.linkname = false
        · by_cases hsw : startsWithSep m.linkname = false
          · right; right; right; left
            refine ⟨hkd, hin, ⟨hlink, hex, hsw⟩, ?_⟩
            simp only [untarStep, if_neg hk, if_pos hin, if_pos hlink,
              if_pos hex, hsw, Bool.false_eq_true, if_false]
          · right; right; right; right
            refine ⟨hkd, hin, fun hcon => hsw hcon.2.2, ?_⟩
            have hsw' : startsWithSep m.linkname = true := by
              cases hb : startsWithSep m.linkname
              · exact absurd hb hsw
              · rfl
            simp only [untarStep, if_neg hk, if_pos hin, if_pos hlink,
              if_pos hex, hsw', if_pos rfl]
            exact extractNonDir_noErr i m s0
        · right; right; right; right
          refine ⟨hkd, hin, fun hcon => hex hcon.2.1, ?_⟩
          simp only [untarStep, if_neg hk, if_pos hin, if_pos hlink,
            if_neg hex]
          exact extractNonDir_noErr i m s0
      · right; right; right; right
        refine ⟨hkd, hin, fun hcon => hlink hcon.1, ?_⟩
        simp only [untarStep, if_neg hk, if_pos hin, if_neg hlink]
        exact extractNonDir_noErr i m s0
    · right; right; left
      exact ⟨hkd, hin, by simp only [untarStep, if_neg hk, if_neg hin]⟩

theorem runMain_nil (tc w : Int) (ex : String → Bool) (oc : ExtractOracle)
    (j : Nat) (s : UState) : runMain tc w ex oc j [] s = .ok s := by
  rw [runMain]

theorem runMain_cons (tc w : Int) (ex : String → Bool) (oc : ExtractOracle)
    (j : Nat) (m : TarEntry) (ms : List TarEntry) (s : UState) :
    runMain tc w ex oc j (m :: ms) s
      = match untarStep tc w ex oc j m s with
        | .ok s1 => runMain tc w ex oc (j+1) ms s1
        | .error e => .error e := by
  rw [runMain]

theorem dirsIn_cons_dir {m : TarEntry} (hk : isDirEntry m = true)
    (ms : List TarEntry) : dirsIn (m :: ms) = dirsIn ms + 1 := by
  simp [dirsIn, List.filter_cons, hk]

theorem dirsIn_cons_nondir {m : TarEntry} (hk : isDirEntry m = false)
    (ms : List TarEntry) : dirsIn (m :: ms) = dirsIn ms := by
  simp [dirsIn, List.filter_cons, hk]

theorem dirCountBefore_zero (ms : List TarEntry) : dirCountBefore ms 0 = 0 := by
  simp [dirCountBefore]

theorem dirCountBefore_succ_dir {m : TarEntry} (hk : isDirEntry m = true)
    (ms : List TarEntry) (k : Nat) :
    dirCountBefore (m :: ms) (k+1) = dirCountBefore ms k + 1 := by
  simp [dirCountBefore, List.take_succ_cons, List.filter_cons, hk]

theorem dirCountBefore_succ_nondir {m : TarEntry} (hk : isDirEntry m = false)
    (ms : List TarEntry) (k : Nat) :
    dirCountBefore (m :: ms) (k+1) = dirCountBefore ms k := by
  simp [dirCountBefore, List.take_succ_cons, List.filter_cons, hk]

/-- Shape of a successful main pass under the no-failure oracle: the
ownership counter matches the number of directory entries consumed, the
event trace grows by events whose positions lie within the processed
range (none of them deferred-pass events), and the deferred-link queue
grows by entries whose positions lie within the processed range. -/
theorem runMain_shape (tc w : Int) (htc : 1 ≤ tc) (ex : String → Bool) :
    ∀ (ms : List TarEntry) (j d0 : Nat) (s0 s : UState),
      s0.count = ((d0 : Int) + tc - 1) % tc →
      runMain tc w ex noErr j ms s0 = .ok s →
      (s.count = (((d0 + dirsIn ms : Nat) : Int) + tc - 1) % tc) ∧
      (∃ dl, s.events = s0.events ++ dl ∧
        ∀ ev ∈ dl, j ≤ ev.pos ∧ ev.pos < j + ms.length ∧
          ∀ p, ¬(ev = Ev.edeferred p)) ∧
      (∃ ql, s.link_queue = s0.link_queue ++ ql ∧
        ∀ pr ∈ ql, j ≤ pr.1 ∧ pr.1 < j + ms.length) := by
  intro ms
  induction ms with
  | nil =>
    intro j d0 s0 s hc hrun
    rw [runMain_nil] at hrun
    injection hrun with hs
    subst hs
    exact ⟨by simpa [dirsIn] using hc,
      ⟨[], by simp, by simp⟩, ⟨[], by simp, by simp⟩⟩
  | cons m ms ih =>
    intro j d0 s0 s hc hrun
    rw [runMain_cons] at hrun
    rcases untarStep_cases tc w htc ex j m s0 d0 hc with
      ⟨hk, hw, hst⟩ | ⟨hk, hw, hst⟩ | ⟨hk, hin, hst⟩ |
      ⟨hk, hin, hdc, hst⟩ | ⟨hk, hin, hdc, hst⟩
    · simp only [hst] at hrun
      obtain ⟨hcnt, ⟨dl, hdl, hdlb⟩, ⟨ql, hql, hqlb⟩⟩ :=
        ih (j+1) (d0+1) _ s rfl hrun
      refine ⟨?_, ⟨Ev.edir j :: dl, ?_, ?_⟩, ⟨ql, by simpa using hql, ?_⟩⟩
      · rw [hcnt]
        have harith : d0 + 1 + dirsIn ms = d0 + dirsIn (m :: ms) := by
          rw [dirsIn_cons_dir hk]
          omega
        rw [harith]
      · simpa [List.append_assoc] using hdl
      · intro ev hev
        rcases List.mem_cons.mp hev with rfl | hev
        · simp [Ev.pos]
        · have := hdlb ev hev
          refine ⟨by omega, by simp only [List.length_cons]; omega, this.2.2⟩
      · intro pr hpr
        have := hqlb pr hpr
        exact ⟨by omega, by simp only [List.length_cons]; omega⟩
    · simp only [hst] at hrun
      obtain ⟨hcnt, ⟨dl, hdl, hdlb⟩, ⟨ql, hql, hqlb⟩⟩ :=
        ih (j+1) (d0+1) _ s rfl hrun
      refine ⟨?_, ⟨dl, by simpa using hdl, ?_⟩, ⟨ql, by simpa using hql, ?_⟩⟩
      · rw [hcnt]
        have harith : d0 + 1 + dirsIn ms = d0 + dirsIn (m :: ms) := by
          rw [dirsIn_cons_dir hk]
          omega
        rw [harith]
      · intro ev hev
        have := hdlb ev hev
        refine ⟨by omega, by simp only [List.length_cons]; omega, this.2.2⟩
      · intro pr hpr
        have := hqlb pr hpr
        exact ⟨by omega, by simp only [List.length_cons]; omega⟩
    · simp only [hst] at hrun
      obtain ⟨hcnt, ⟨dl, hdl, hdlb⟩, ⟨ql, hql, hqlb⟩⟩ :=
        ih (j+1) d0 s0 s hc hrun
      refine ⟨?_, ⟨dl, by simpa using hdl, ?_⟩, ⟨ql, by simpa using hql, ?_⟩⟩
      · rw [hcnt, dirsIn_cons_nondir hk]
      · intro ev hev
        have := hdlb ev hev
        refine ⟨by omega, by simp only [List.length_cons]; omega, this.2.2⟩
      · intro pr hpr
        have := hqlb pr hpr
        exact ⟨by omega, by simp only [List.length_cons]; omega⟩
    · simp only [hst] at hrun
      obtain ⟨hcnt, ⟨dl, hdl, hdlb⟩, ⟨ql, hql, hqlb⟩⟩ :=
        ih (j+1) d0 { s0 with link_queue := s0.link_queue ++ [(j, m)] } s
          (by simpa using hc) hrun
      refine ⟨?_, ⟨dl, by simpa using hdl, ?_⟩,
        ⟨(j, m) :: ql, by simpa [List.append_assoc] using hql, ?_⟩⟩
      · rw [hcnt, dirsIn_cons_nondir hk]
      · intro ev hev
        have := hdlb ev hev
        refine ⟨by omega, by simp only [List.length_cons]; omega, this.2.2⟩
      · intro pr hpr
        rcases List.mem_cons.mp hpr with rfl | hpr
        · simp only [List.length_cons]
          omega
        · have := hqlb pr hpr
          exact ⟨by omega, by simp only [List.length_cons]; omega⟩
    · simp only [hst] at hrun
      obtain ⟨hcnt, ⟨dl, hdl, hdlb⟩, ⟨ql, hql, hqlb⟩⟩ :=
        ih (j+1) d0
          { s0 with events := s0.events ++ [Ev.efile j],
                    file_count := s0.file_count + 1 } s
          (by simpa using hc) hrun
      refine ⟨?_, ⟨Ev.efile j :: dl, by simpa [List.append_assoc] using hdl, ?_⟩,
        ⟨ql, by simpa using hql, ?_⟩⟩
      · rw [hcnt, dirsIn_cons_nondir hk]
      · intro ev hev
        rcases List.mem_cons.mp hev with rfl | hev
        · simp [Ev.pos]
        · have := hdlb ev hev
          refine ⟨by omega, by simp only [List.length_cons]; omega, this.2.2⟩
      · intro pr hpr
        have := hqlb pr hpr
        exact ⟨by omega, by simp only [List.length_cons]; omega⟩

theorem ev_shift_dir {ms : List TarEntry} {m : TarEntry}
    (hk : isDirEntry m = true) (j d0 : Nat) (tc w : Int) (i : Nat) :
    (∃ k m1, (m :: ms).get? k = some m1 ∧ i = j + k ∧ isDirEntry m1 = true ∧
       (((d0 + dirCountBefore (m :: ms) k : Nat) : Int) % tc = w))
    ↔ ((i = j ∧ ((d0 : Int) % tc = w)) ∨
       (∃ k m1, ms.get? k = some m1 ∧ i = (j+1) + k ∧ isDirEntry m1 = true ∧
         (((d0 + 1 + dirCountBefore ms k : Nat) : Int) % tc = w))) := by
  constructor
  · rintro ⟨k, m1, hget, rfl, hdir, hown⟩
    match k with
    | 0 =>
      left
      simp only [List.get?_cons_zero, Option.some.injEq] at hget
      rw [dirCountBefore_zero, Nat.add_zero] at hown
      exact ⟨by omega, hown⟩
    | k+1 =>
      right
      simp only [List.get?_cons_succ] at hget
      have harith : d0 + dirCountBefore (m :: ms) (k+1)
          = d0 + 1 + dirCountBefore ms k := by
        rw [dirCountBefore_succ_dir hk]
        omega
      rw [harith] at hown
      exact ⟨k, m1, hget, by omega, hdir, hown⟩
  · rintro (⟨rfl, hown⟩ | ⟨k, m1, hget, rfl, hdir, hown⟩)
    · refine ⟨0, m, by simp, by omega, hk, ?_⟩
      rw [dirCountBefore_zero, Nat.add_zero]
      exact hown
    · refine ⟨k+1, m1, by simpa using hget, by omega, hdir, ?_⟩
      have harith : d0 + dirCountBefore (m :: ms) (k+1)
          = d0 + 1 + dirCountBefore ms k := by
        rw [dirCountBefore_succ_dir hk]
        omega
      rw [harith]
      exact hown

theorem ev_shift_nondir {ms : List TarEntry} {m : TarEntry}
    (hk : isDirEntry m = false) (j d0 : Nat) (tc w : Int) (i : Nat) :
    (∃ k m1, (m :: ms).get? k = some m1 ∧ i = j + k ∧ isDirEntry m1 = true ∧
       (((d0 + dirCountBefore (m :: ms) k : Nat) : Int) % tc = w))
    ↔ (∃ k m1, ms.get? k = some m1 ∧ i = (j+1) + k ∧ isDirEntry m1 = true ∧
         (((d0 + dirCountBefore ms k : Nat) : Int) % tc = w)) := by
  constructor
  · rintro ⟨k, m1, hget, rfl, hdir, hown⟩
    match k with
    | 0 =>
      simp only [List.get?_cons_zero, Option.some.injEq] at hget
      rw [hget] at hk
      rw [hk] at hdir
      exact absurd hdir (by simp)
    | k+1 =>
      simp only [List.get?_cons_succ] at hget
      rw [dirCountBefore_succ_nondir hk] at hown
      exact ⟨k, m1, hget, by omega, hdir, hown⟩
  · rintro ⟨k, m1, hget, rfl, hdir, hown⟩
    refine ⟨k+1, m1, by simpa using hget, by omega, hdir, ?_⟩
    rw [dirCountBefore_succ_nondir hk]
    exact hown

theorem dirs_shift_dir {ms : List TarEntry} {m : TarEntry}
    (hk : isDirEntry m = true) (d0 : Nat) (tc w : Int) (x : String) :
    (∃ k m1, (m :: ms).get? k = some m1 ∧ isDirEntry m1 = true ∧
       (((d0 + dirCountBefore (m :: ms) k : Nat) : Int) % tc = w) ∧
       stripSep m1.name = x)
    ↔ ((((d0 : Int) % tc = w) ∧ stripSep m.name = x) ∨
       (∃ k m1, ms.get? k = some m1 ∧ isDirEntry m1 = true ∧
         (((d0 + 1 + dirCountBefore ms k : Nat) : Int) % tc = w) ∧
         stripSep m1.name = x)) := by
  constructor
  · rintro ⟨k, m1, hget, hdir, hown, hname⟩
    match k with
    | 0 =>
      left
      simp only [List.get?_cons_zero, Option.some.injEq] at hget
      rw [dirCountBefore_zero, Nat.add_zero] at hown
      subst hget
      exact ⟨hown, hname⟩
    | k+1 =>
      right
      simp only [List.get?_cons_succ] at hget
      have harith : d0 + dirCountBefore (m :: ms) (k+1)
          = d0 + 1 + dirCountBefore ms k := by
        rw [dirCountBefore_succ_dir hk]
        omega
      rw [harith] at hown
      exact ⟨k, m1, hget, hdir, hown, hname⟩
  · rintro (⟨hown, hname⟩ | ⟨k, m1, hget, hdir, hown, hname⟩)
    · refine ⟨0, m, by simp, hk, ?_, hname⟩
      rw [dirCountBefore_zero, Nat.add_zero]
      exact hown
    · refine ⟨k+1, m1, by simpa using hget, hdir, ?_, hname⟩
      have harith : d0 + dirCountBefore (m :: ms) (k+1)
          = d0 + 1 + dirCountBefore ms k := by
        rw [dirCountBefore_succ_dir hk]
        omega
      rw [harith]
      exact hown

theorem dirs_shift_nondir {ms : List TarEntry} {m : TarEntry}
    (hk : isDirEntry m = false) (d0 : Nat) (tc w : Int) (x : String) :
    (∃ k m1, (m :: ms).get? k = some m1 ∧ isDirEntry m1 = true ∧
       (((d0 + dirCountBefore (m :: ms) k : Nat) : Int) % tc = w) ∧
       stripSep m1.name = x)
    ↔ (∃ k m1, ms.get? k = some m1 ∧ isDirEntry m1 = true ∧
         (((d0 + dirCountBefore ms k : Nat) : Int) % tc = w) ∧
         stripSep m1.name = x) := by
  constructor
  · rintro ⟨k, m1, hget, hdir, hown, hname⟩
    match k with
    | 0 =>
      simp only [List.get?_cons_zero, Option.some.injEq] at hget
      rw [hget] at hk
      rw [hk] at hdir
      exact absurd hdir (by simp)
    | k+1 =>
      simp only [List.get?_cons_succ] at hget
      rw [dirCountBefore_succ_nondir hk] at hown
      exact ⟨k, m1, hget, hdir, hown, hname⟩
  · rintro ⟨k, m1, hget, hdir, hown, hname⟩
    refine ⟨k+1, m1, by simpa using hget, hdir, ?_, hname⟩
    rw [dirCountBefore_succ_nondir hk]
    exact hown

/-- The directory-extract events of a successful main pass: `edir i` is in
the final trace exactly when it was already there, or the member at stream
position `i` is a directory entry owned by worker `w` (its zero-based
directory ordinal `n` satisfying `n % thread_count == index`). -/
theorem runMain_edir_mem (tc w : Int) (htc : 1 ≤ tc) (ex : String → Bool) :
    ∀ (ms : List TarEntry) (j d0 : Nat) (s0 s : UState),
      s0.count = ((d0 : Int) + tc - 1) % tc →
      runMain tc w ex noErr j ms s0 = .ok s →
      ∀ i, (Ev.edir i ∈ s.events ↔ (Ev.edir i ∈ s0.events ∨
        ∃ k m, ms.get? k = some m ∧ i = j + k ∧ isDirEntry m = true ∧
          (((d0 + dirCountBefore ms k : Nat) : Int) % tc = w))) := by
  intro ms
  induction ms with
  | nil =>
    intro j d0 s0 s hc hrun i
    rw [runMain_nil] at hrun
    injection hrun with hs
    subst hs
    simp
  | cons m ms ih =>
    intro j d0 s0 s hc hrun i
    rw [runMain_cons] at hrun
    rcases untarStep_cases tc w htc ex j m s0 d0 hc with
      ⟨hk, hw, hst⟩ | ⟨hk, hw, hst⟩ | ⟨hk, hin, hst⟩ |
      ⟨hk, hin, hdc, hst⟩ | ⟨hk, hin, hdc, hst⟩
    · simp only [hst] at hrun
      rw [ih (j+1) (d0+1) _ s rfl hrun i, ev_shift_dir hk j d0 tc w i]
      simp only [List.mem_append, List.mem_singleton, Ev.edir.injEq]
      constructor
      · rintro ((h | rfl) | h)
        · exact Or.inl h
        · exact Or.inr (Or.inl ⟨rfl, hw⟩)
        · exact Or.inr (Or.inr h)
      · rintro (h | (⟨rfl, _⟩ | h))
        · exact Or.inl (Or.inl h)
        · exact Or.inl (Or.inr rfl)
        · exact Or.inr h
    · simp only [hst] at hrun
      rw [ih (j+1) (d0+1) _ s rfl hrun i, ev_shift_dir hk j d0 tc w i]
      simp only []
      constructor
      · rintro (h | h)
        · exact Or.inl h
        · exact Or.inr (Or.inr h)
      · rintro (h | (⟨rfl, hww⟩ | h))
        · exact Or.inl h
        · exact absurd hww hw
        · exact Or.inr h
    · simp only [hst] at hrun
      rw [ih (j+1) d0 s0 s hc hrun i, ev_shift_nondir hk j d0 tc w i]
    · simp only [hst] at hrun
      rw [ih (j+1) d0 { s0 with link_queue := s0.link_queue ++ [(j, m)] } s
        (by simpa using hc) hrun i, ev_shift_nondir hk j d0 tc w i]
    · simp only [hst] at hrun
      rw [ih (j+1) d0
        { s0 with events := s0.events ++ [Ev.efile j],
                  file_count := s0.file_count + 1 } s
        (by simpa using hc) hrun i, ev_shift_nondir hk j d0 tc w i]
      simp only [List.mem_append, List.mem_singleton]
      constructor
      · rintro ((h | h) | h)
        · exact Or.inl h
        · exact absurd h (by simp)
        · exact Or.inr h
      · rintro (h | h)
        · exact Or.inl (Or.inl h)
        · exact Or.inr h

/-- The owned-directory set of a successful main pass: `x ∈ my_dirs`
exactly when it was there initially or some directory entry owned by
worker `w` has stripped name `x`. -/
theorem runMain_my_dirs (tc w : Int) (htc : 1 ≤ tc) (ex : String → Bool) :
    ∀ (ms : List TarEntry) (j d0 : Nat) (s0 s : UState),
      s0.count = ((d0 : Int) + tc - 1) % tc →
      runMain tc w ex noErr j ms s0 = .ok s →
      ∀ x, (x ∈ s.my_dirs ↔ (x ∈ s0.my_dirs ∨
        ∃ k m, ms.get? k = some m ∧ isDirEntry m = true ∧
          (((d0 + dirCountBefore ms k : Nat) : Int) % tc = w) ∧
          stripSep m.name = x)) := by
  intro ms
  induction ms with
  | nil =>
    intro j d0 s0 s hc hrun x
    rw [runMain_nil] at hrun
    injection hrun with hs
    subst hs
    simp
  | cons m ms ih =>
    intro j d0 s0 s hc hrun x
    rw [runMain_cons] at hrun
    rcases untarStep_cases tc w htc ex j m s0 d0 hc with
      ⟨hk, hw, hst⟩ | ⟨hk, hw, hst⟩ | ⟨hk, hin, hst⟩ |
      ⟨hk, hin, hdc, hst⟩ | ⟨hk, hin, hdc, hst⟩
    · simp only [hst] at hrun
      rw [ih (j+1) (d0+1) _ s rfl hrun x, dirs_shift_dir hk d0 tc w x]
      simp only [List.mem_cons]
      constructor
      · rintro ((rfl | h) | h)
        · exact Or.inr (Or.inl ⟨hw, rfl⟩)
        · exact Or.inl h
        · exact Or.inr (Or.inr h)
      · rintro (h | (⟨_, rfl⟩ | h))
        · exact Or.inl (Or.inr h)
        · exact Or.inl (Or.inl rfl)
        · exact Or.inr h
    · simp only [hst] at hrun
      rw [ih (j+1) (d0+1) _ s rfl hrun x, dirs_shift_dir hk d0 tc w x]
      constructor
      · rintro (h | h)
        · exact Or.inl h
        · exact Or.inr (Or.inr h)
      · rintro (h | (⟨hww, _⟩ | h))
        · exact Or.inl h
        · exact absurd hww hw
        · exact Or.inr h
    · simp only [hst] at hrun
      rw [ih (j+1) d0 s0 s hc hrun x, dirs_shift_nondir hk d0 tc w x]
    · simp only [hst] at hrun
      rw [ih (j+1) d0 { s0 with link_queue := s0.link_queue ++ [(j, m)] } s
        (by simpa using hc) hrun x, dirs_shift_nondir hk d0 tc w x]
    · simp only [hst] at hrun
      rw [ih (j+1) d0
        { s0 with events := s0.events ++ [Ev.efile j],
                  file_count := s0.file_count + 1 } s
        (by simpa using hc) hrun x, dirs_shift_nondir hk d0 tc w x]

@[simp] theorem noErr_err (i : Nat) : noErr.err i = none := rfl

@[simp] theorem noErr_err2 (i : Nat) : noErr.err2 i = none := rfl

@[simp] theorem noErr_errD (i : Nat) : noErr.errD i = none := rfl

theorem get?_some_lt {α : Type} {l : List α} {k : Nat} {a : α}
    (h : l.get? k = some a) : k < l.length := by
  by_contra hge
  rw [List.get?_eq_none.mpr (by omega)] at h
  exact absurd h (by simp)

/-- The post-barrier pass under the no-failure oracle: every queued link is
extracted (one `edeferred` event per queue item, in queue order) and
counted in `file_count`. -/
theorem runDeferred_noErr :
    ∀ (q : List (Nat × TarEntry)) (s : UState),
      runDeferred noErr q s = .ok
        { s with events := s.events ++ q.map (fun pr => Ev.edeferred pr.1),
                 file_count := s.file_count + q.length } := by
  intro q
  induction q with
  | nil =>
    intro s
    simp [runDeferred]
  | cons pr rest ih =>
    intro s
    obtain ⟨i, m⟩ := pr
    rw [runDeferred]
    simp only [noErr_errD]
    rw [ih]
    obtain ⟨cnt, md, lq, fc, dc, col, ev⟩ := s
    simp [List.append_assoc]
    omega

theorem runMain_append (tc w : Int) (ex : String → Bool)
    (oc : ExtractOracle) :
    ∀ (xs ys : List TarEntry) (j : Nat) (s : UState),
      runMain tc w ex oc j (xs ++ ys) s
        = match runMain tc w ex oc j xs s with
          | .ok s1 => runMain tc w ex oc (j + xs.length) ys s1
          | .error e => .error e := by
  intro xs
  induction xs with
  | nil =>
    intro ys j s
    simp [runMain_nil]
  | cons m ms ih =>
    intro ys j s
    rw [List.cons_append, runMain_cons, runMain_cons]
    cases hst : untarStep tc w ex oc j m s with
    | ok s1 =>
      simp only [hst, ih ys (j+1) s1, List.length_cons]
      have harith : j + 1 + ms.length = j + (ms.length + 1) := by omega
      rw [harith]
    | error e => simp only [hst]

/-- Splitting a successful full worker run at the entry `m` following the
first `pre.length` members: the main pass reaches `smid` after `pre`,
takes one step on `m` to `s2`, finishes `post` in `smf`, and the deferred
pass turns `smf` into the final state. -/
theorem runWorker_split (tc w : Int) (ex : String → Bool)
    (pre post : List TarEntry) (m : TarEntry) (smid s : UState)
    (hmid : runMain tc w ex noErr 0 pre (initState tc) = .ok smid)
    (hrun : runWorker tc w ex noErr (pre ++ m :: post) = .ok s) :
    ∃ s2 smf,
      untarStep tc w ex noErr pre.length m smid = .ok s2 ∧
      runMain tc w ex noErr (pre.length + 1) post s2 = .ok smf ∧
      s = { smf with
             events := smf.events
               ++ smf.link_queue.map (fun pr => Ev.edeferred pr.1),
             file_count := smf.file_count + smf.link_queue.length } := by
  rw [runWorker] at hrun
  cases hmain : runMain tc w ex noErr 0 (pre ++ m :: post) (initState tc) with
  | error e =>
    rw [hmain] at hrun
    exact absurd hrun (by simp)
  | ok smf =>
    simp only [hmain] at hrun
    rw [runDeferred_noErr smf.link_queue smf] at hrun
    injection hrun with hs
    rw [runMain_append] at hmain
    simp only [hmid, Nat.zero_add] at hmain
    rw [runMain_cons] at hmain
    cases hst : untarStep tc w ex noErr pre.length m smid with
    | error e =>
      rw [hst] at hmain
      exact absurd hmain (by simp)
    | ok s2 =>
      rw [hst] at hmain
      exact ⟨s2, smf, rfl, hmain, hs.symm⟩

theorem initState_count (tc : Int) (htc : 1 ≤ tc) :
    (initState tc).count = (((0 : Nat) : Int) + tc - 1) % tc := by
  simp only [initState, Nat.cast_zero, zero_add]
  exact (Int.emod_eq_of_lt (by omega) (by omega)).symm

/-- C1: for every archive and every `thread_count >= 1`, the `n`-th
directory entry of the archive (counting directory entries only, from 0)
is extracted by worker `w` exactly when `n % thread_count = w` — so
exactly one worker index in `[0, thread_count)` materializes it — and
when owned its stripped name is recorded in that worker's
OwnedDirectorySet. -/
theorem untar_dir_ownership (tc w : Int) (htc : 1 ≤ tc) (hw0 : 0 ≤ w)
    (hwlt : w < tc) (ex : String → Bool) (entries : List TarEntry)
    (s : UState) (hrun : runWorker tc w ex noErr entries = .ok s)
    (i : Nat) (m : TarEntry) (hget : entries.get? i = some m)
    (hdir : isDirEntry m = true) :
    (Ev.edir i ∈ s.events ↔ ((dirCountBefore entries i : Nat) : Int) % tc = w)
    ∧ (((dirCountBefore entries i : Nat) : Int) % tc = w →
        stripSep m.name ∈ s.my_dirs) := by
  rw [runWorker] at hrun
  cases hmain : runMain tc w ex noErr 0 entries (initState tc) with
  | error e =>
    rw [hmain] at hrun
    exact absurd hrun (by simp)
  | ok smf =>
    simp only [hmain] at hrun
    rw [runDeferred_noErr smf.link_queue smf] at hrun
    injection hrun with hs
    subst hs
    have hedir := runMain_edir_mem tc w htc ex entries 0 0 (initState tc) smf
      (initState_count tc htc) hmain i
    have hdirs := runMain_my_dirs tc w htc ex entries 0 0 (initState tc) smf
      (initState_count tc htc) hmain (stripSep m.name)
    constructor
    · constructor
      · intro hmem
        have hmem1 : Ev.edir i ∈ smf.events := by
          rcases List.mem_append.mp hmem with h | h
          · exact h
          · exact absurd h (by simp)
        rcases hedir.mp hmem1 with h | ⟨k, m1, hg, hik, hd1, hown⟩
        · exact absurd h (by simp [initState])
        · have hk : k = i := by omega
          subst hk
          rw [hget] at hg
          injection hg with hg
          subst hg
          simpa using hown
      · intro hown
        apply List.mem_append.mpr
        apply Or.inl
        apply hedir.mpr
        exact Or.inr ⟨i, m, hget, by omega, hdir, by simpa using hown⟩
    · intro hown
      have hmm := hdirs.mpr (Or.inr ⟨i, m, hget, hdir, by simpa using hown, rfl⟩)
      simpa using hmm

/-- C3: during a worker's run over `pre ++ m :: post` with `m` not a
directory, `m` is materialized (either in the main pass or — when
deferred — in the post-barrier pass) exactly when `dirname m.name` is in
that worker's own OwnedDirectorySet at encounter time; and in that case
the same worker extracted a directory entry with that stripped name at an
earlier stream position, its extraction event strictly preceding the
child's in the worker's trace. -/
theorem untar_child_parent (tc w : Int) (htc : 1 ≤ tc) (ex : String → Bool)
    (pre post : List TarEntry) (m : TarEntry) (hm : isDirEntry m = false)
    (smid s : UState)
    (hmid : runMain tc w ex noErr 0 pre (initState tc) = .ok smid)
    (hrun : runWorker tc w ex noErr (pre ++ m :: post) = .ok s) :
    ((Ev.efile pre.length ∈ s.events ∨ Ev.edeferred pre.length ∈ s.events)
      ↔ dirname m.name ∈ smid.my_dirs)
    ∧ (dirname m.name ∈ smid.my_dirs →
        ∃ k mk, k < pre.length ∧ pre.get? k = some mk ∧
          isDirEntry mk = true ∧ stripSep mk.name = dirname m.name ∧
          Ev.edir k ∈ s.events ∧
          (evBefore s.events (Ev.edir k) (Ev.efile pre.length) ∨
           evBefore s.events (Ev.edir k) (Ev.edeferred pre.length))) := by
  obtain ⟨s2, smf, hst, hpost, hs⟩ :=
    runWorker_split tc w ex pre post m smid s hmid hrun
  obtain ⟨hcmid, ⟨dl0, hdl0, hdl0b⟩, ⟨ql0, hql0, hql0b⟩⟩ :=
    runMain_shape tc w htc ex pre 0 0 (initState tc) smid
      (initState_count tc htc) hmid
  simp only [initState, List.nil_append] at hdl0 hql0
  have hparent : dirname m.name ∈ smid.my_dirs →
      ∃ k mk, k < pre.length ∧ pre.get? k = some mk ∧
        isDirEntry mk = true ∧ stripSep mk.name = dirname m.name ∧
        Ev.edir k ∈ smid.events := by
    intro hin
    have hdirs := runMain_my_dirs tc w htc ex pre 0 0 (initState tc) smid
      (initState_count tc htc) hmid (dirname m.name)
    rcases hdirs.mp hin with h | ⟨k, mk, hgetk, hdirk, hownk, hnamek⟩
    · exact absurd h (by simp [initState])
    · have hed := runMain_edir_mem tc w htc ex pre 0 0 (initState tc) smid
        (initState_count tc htc) hmid k
      exact ⟨k, mk, get?_some_lt hgetk, hgetk, hdirk, hnamek,
        hed.mpr (Or.inr ⟨k, mk, hgetk, by omega, hdirk, hownk⟩)⟩
  rcases untarStep_cases tc w htc ex pre.length m smid (0 + dirsIn pre)
      hcmid with
    ⟨hk, _, _⟩ | ⟨hk, _, _⟩ | ⟨hk, hin, hst3⟩ |
    ⟨hk, hin, hdc, hst4⟩ | ⟨hk, hin, hdc, hst5⟩
  · rw [hm] at hk
    exact absurd hk (by simp)
  · rw [hm] at hk
    exact absurd hk (by simp)
  · -- parent directory not owned: the step is a no-op and `m` is never
    -- extracted by this worker
    rw [hst3] at hst
    injection hst with h2
    subst h2
    obtain ⟨_, ⟨dl1, hdl1, hdl1b⟩, ⟨ql1, hql1, hql1b⟩⟩ :=
      runMain_shape tc w htc ex post (pre.length+1) (0 + dirsIn pre) smid smf
        hcmid hpost
    subst hs
    have hnoev : ¬(Ev.efile pre.length ∈ smf.events
        ∨ Ev.edeferred pre.length ∈ smf.events
        ∨ Ev.edeferred pre.length
            ∈ smf.link_queue.map (fun pr => Ev.edeferred pr.1)) := by
      rintro (h | h | h)
      · rw [hdl1] at h
        rcases List.mem_append.mp h with h | h
        · rw [hdl0] at h
          have := hdl0b _ h
          simp [Ev.pos] at this
        · have := hdl1b _ h
          simp [Ev.pos] at this
      · rw [hdl1] at h
        rcases List.mem_append.mp h with h | h
        · rw [hdl0] at h
          exact (hdl0b _ h).2.2 pre.length rfl
        · exact (hdl1b _ h).2.2 pre.length rfl
      · rcases List.mem_map.mp h with ⟨pr, hpr, hpr2⟩
        have hpr1 : pr.1 = pre.length := by
          have := congrArg Ev.pos hpr2
          simpa [Ev.pos] using this
        rw [hql1] at hpr
        rcases List.mem_append.mp hpr with h1 | h1
        · rw [hql0] at h1
          have := hql0b _ h1
          omega
        · have := hql1b _ h1
          omega
    constructor
    · constructor
      · intro hmem
        exfalso
        apply hnoev
        rcases hmem with h | h
        · rcases List.mem_append.mp h with h | h
          · exact Or.inl h
          · rcases List.mem_map.mp h with ⟨pr, _, hpr2⟩
            exact absurd hpr2 (by simp)
        · rcases List.mem_append.mp h with h | h
          · exact Or.inr (Or.inl h)
          · exact Or.inr (Or.inr h)
      · intro hown
        exact absurd hown hin
    · intro hown
      exact absurd hown hin
  · -- relative dangling link: queued, extracted after the barrier
    rw [hst4] at hst
    injection hst with h2
    subst h2
    obtain ⟨_, ⟨dl1, hdl1, hdl1b⟩, ⟨ql1, hql1, hql1b⟩⟩ :=
      runMain_shape tc w htc ex post (pre.length+1) (0 + dirsIn pre) _ smf
        (by simpa using hcmid) hpost
    simp only [] at hdl1 hql1
    subst hs
    have hqmem : (pre.length, m) ∈ smf.link_queue := by
      rw [hql1]
      simp
    have hdef : Ev.edeferred pre.length
        ∈ smf.link_queue.map (fun pr => Ev.edeferred pr.1) := by
      have := List.mem_map_of_mem (fun pr => Ev.edeferred pr.1) hqmem
      simpa using this
    constructor
    · exact ⟨fun _ => hin,
        fun _ => Or.inr (List.mem_append.mpr (Or.inr hdef))⟩
    · intro hown
      obtain ⟨k, mk, hklt, hgetk, hdirk, hnamek, hedk⟩ := hparent hown
      obtain ⟨u1, u2, hu⟩ := List.append_of_mem hedk
      obtain ⟨w1, w2, hw⟩ := List.append_of_mem hdef
      refine ⟨k, mk, hklt, hgetk, hdirk, hnamek, ?_, Or.inr ?_⟩
      · apply List.mem_append.mpr
        apply Or.inl
        rw [hdl1]
        apply List.mem_append.mpr
        apply Or.inl
        rw [hu]
        simp
      · refine ⟨u1, u2 ++ dl1 ++ w1, w2, ?_⟩
        rw [hdl1, hu, hw]
        simp [List.append_assoc]
  · -- parent owned, extracted in the main pass
    rw [hst5] at hst
    injection hst with h2
    subst h2
    obtain ⟨_, ⟨dl1, hdl1, hdl1b⟩, ⟨ql1, hql1, hql1b⟩⟩ :=
      runMain_shape tc w htc ex post (pre.length+1) (0 + dirsIn pre) _ smf
        (by simpa using hcmid) hpost
    simp only [] at hdl1 hql1
    subst hs
    have hfmem : Ev.efile pre.length ∈ smf.events := by
      rw [hdl1]
      simp
    constructor
    · exact ⟨fun _ => hin,
        fun _ => Or.inl (List.mem_append.mpr (Or.inl hfmem))⟩
    · intro hown
      obtain ⟨k, mk, hklt, hgetk, hdirk, hnamek, hedk⟩ := hparent hown
      obtain ⟨u1, u2, hu⟩ := List.append_of_mem hedk
      refine ⟨k, mk, hklt, hgetk, hdirk, hnamek, ?_, Or.inl ?_⟩
      · apply List.mem_append.mpr
        apply Or.inl
        rw [hdl1, hu]
        simp
      · refine ⟨u1, u2, dl1
          ++ smf.link_queue.map (fun pr => Ev.edeferred pr.1), ?_⟩
        rw [hdl1, hu]
        simp [List.append_assoc]

theorem islnk_kind {m : TarEntry} (h : m.islnk = true) :
    m.kind = EntryKind.hardlink := by
  simpa [TarEntry.islnk] using h

theorem issym_kind {m : TarEntry} (h : m.issym = true) :
    m.kind = EntryKind.symlink := by
  simpa [TarEntry.issym] using h

theorem link_not_dir {m : TarEntry} (h : m.islnk = true ∨ m.issym = true) :
    isDirEntry m = false := by
  rcases h with h | h
  · simp [isDirEntry, islnk_kind h]
  · simp [isDirEntry, issym_kind h]

/-- C9: for a link entry (hard or symbolic) whose parent directory the
worker owns and whose target does not exist at encounter time: an
absolute target is extracted immediately in the main pass (never queued,
never handled after the barrier), while a relative target is not
extracted in the main pass but queued, and extracted exactly once in the
post-barrier pass. -/
theorem untar_deferred_link_policy (tc w : Int) (htc : 1 ≤ tc)
    (ex : String → Bool) (pre post : List TarEntry) (m : TarEntry)
    (hlink : m.islnk = true ∨ m.issym = true)
    (smid s : UState)
    (hmid : runMain tc w ex noErr 0 pre (initState tc) = .ok smid)
    (hown : dirname m.name ∈ smid.my_dirs)
    (hnex : ex m.linkname = false)
    (hrun : runWorker tc w ex noErr (pre ++ m :: post) = .ok s) :
    (startsWithSep m.linkname = true →
       Ev.efile pre.length ∈ s.events ∧
       Ev.edeferred pre.length ∉ s.events ∧
       (∀ e, ¬((pre.length, e) ∈ s.link_queue))) ∧
    (startsWithSep m.linkname = false →
       ¬(Ev.efile pre.length ∈ s.events) ∧
       (pre.length, m) ∈ s.link_queue ∧
       Ev.edeferred pre.length ∈ s.events) := by
  have hm : isDirEntry m = false := link_not_dir hlink
  obtain ⟨s2, smf, hst, hpost, hs⟩ :=
    runWorker_split tc w ex pre post m smid s hmid hrun
  obtain ⟨hcmid, ⟨dl0, hdl0, hdl0b⟩, ⟨ql0, hql0, hql0b⟩⟩ :=
    runMain_shape tc w htc ex pre 0 0 (initState tc) smid
      (initState_count tc htc) hmid
  simp only [initState, List.nil_append] at hdl0 hql0
  rcases untarStep_cases tc w htc ex pre.length m smid (0 + dirsIn pre)
      hcmid with
    ⟨hk, _, _⟩ | ⟨hk, _, _⟩ | ⟨hk, hin, hst3⟩ |
    ⟨hk, hin, hdc, hst4⟩ | ⟨hk, hin, hdc, hst5⟩
  · rw [hm] at hk
    exact absurd hk (by simp)
  · rw [hm] at hk
    exact absurd hk (by simp)
  · exact absurd hown hin
  · -- relative target: queued and extracted after the barrier
    rw [hst4] at hst
    injection hst with h2
    subst h2
    obtain ⟨_, ⟨dl1, hdl1, hdl1b⟩, ⟨ql1, hql1, hql1b⟩⟩ :=
      runMain_shape tc w htc ex post (pre.length+1) (0 + dirsIn pre) _ smf
        (by simpa using hcmid) hpost
    simp only [] at hdl1 hql1
    subst hs
    have hqmem : (pre.length, m) ∈ smf.link_queue := by
      rw [hql1]
      simp
    constructor
    · intro habs
      rw [habs] at hdc
      exact absurd hdc.2.2 (by simp)
    · intro _
      refine ⟨?_, by simpa using hqmem, ?_⟩
      · intro h
        rcases List.mem_append.mp h with h | h
        · rw [hdl1] at h
          rcases List.mem_append.mp h with h | h
          · rw [hdl0] at h
            have := hdl0b _ h
            simp [Ev.pos] at this
          · have := hdl1b _ h
            simp [Ev.pos] at this
        · rcases List.mem_map.mp h with ⟨pr, _, hpr2⟩
          exact absurd hpr2 (by simp)
      · apply List.mem_append.mpr
        apply Or.inr
        have := List.mem_map_of_mem (fun pr => Ev.edeferred pr.1) hqmem
        simpa using this
  · -- absolute target: extracted immediately, never queued
    rw [hst5] at hst
    injection hst with h2
    subst h2
    obtain ⟨_, ⟨dl1, hdl1, hdl1b⟩, ⟨ql1, hql1, hql1b⟩⟩ :=
      runMain_shape tc w htc ex post (pre.length+1) (0 + dirsIn pre) _ smf
        (by simpa using hcmid) hpost
    simp only [] at hdl1 hql1
    subst hs
    have hsw : startsWithSep m.linkname = true := by
      cases hb : startsWithSep m.linkname
      · exact absurd ⟨hlink, hnex, hb⟩ hdc
      · rfl
    have hnq : ∀ e, ¬((pre.length, e) ∈ smf.link_queue) := by
      intro e h
      rw [hql1] at h
      rcases List.mem_append.mp h with h | h
      · rw [hql0] at h
        have := hql0b _ h
        simp at this
      · have := hql1b _ h
        simp at this
    constructor
    · intro _
      refine ⟨?_, ?_, ?_⟩
      · apply List.mem_append.mpr
        apply Or.inl
        rw [hdl1]
        simp
      · intro h
        rcases List.mem_append.mp h with h | h
        · rw [hdl1] at h
          rcases List.mem_append.mp h with h | h
          · rw [hdl0] at h
            rcases List.mem_append.mp h with h | h
            · exact (hdl0b _ h).2.2 pre.length rfl
            · simp at h
          · exact (hdl1b _ h).2.2 pre.length rfl
        · rcases List.mem_map.mp h with ⟨pr, hpr, hpr2⟩
          have hpr1 : pr.1 = pre.length := by
            have := congrArg Ev.pos hpr2
            simpa [Ev.pos] using this
          apply hnq pr.2
          have hpreq : pr = (pre.length, pr.2) := by
            rw [← hpr1]
          rw [← hpreq]
          exact hpr
      · intro e h
        exact hnq e (by simpa using h)
    · intro habs
      rw [habs] at hsw
      exact absurd hsw (by simp)

/-- C10 (implicit): when every directory entry of the archive has a
nonempty stripped name, a non-directory entry at the top level (empty
dirname) is completely skipped by every worker: the step leaves the
worker state unchanged, the entry is extracted in neither pass, and it
is never queued — so it contributes to no counter. -/
theorem untar_toplevel_nondir_skipped (tc w : Int) (htc : 1 ≤ tc)
    (ex : String → Bool) (pre post : List TarEntry) (m : TarEntry)
    (hm : isDirEntry m = false) (hdn : dirname m.name = "")
    (hall : ∀ k mk, (pre ++ m :: post).get? k = some mk →
        isDirEntry mk = true → ¬(stripSep mk.name = ""))
    (smid s : UState)
    (hmid : runMain tc w ex noErr 0 pre (initState tc) = .ok smid)
    (hrun : runWorker tc w ex noErr (pre ++ m :: post) = .ok s) :
    untarStep tc w ex noErr pre.length m smid = .ok smid ∧
    ¬(Ev.efile pre.length ∈ s.events) ∧
    ¬(Ev.edeferred pre.length ∈ s.events) ∧
    ¬(Ev.edir pre.length ∈ s.events) ∧
    (∀ e, ¬((pre.length, e) ∈ s.link_queue)) := by
  obtain ⟨s2, smf, hst, hpost, hs⟩ :=
    runWorker_split tc w ex pre post m smid s hmid hrun
  obtain ⟨hcmid, ⟨dl0, hdl0, hdl0b⟩, ⟨ql0, hql0, hql0b⟩⟩ :=
    runMain_shape tc w htc ex pre 0 0 (initState tc) smid
      (initState_count tc htc) hmid
  simp only [initState, List.nil_append] at hdl0 hql0
  have hnotin : ¬(dirname m.name ∈ smid.my_dirs) := by
    intro hin
    have hdirs := runMain_my_dirs tc w htc ex pre 0 0 (initState tc) smid
      (initState_count tc htc) hmid (dirname m.name)
    rcases hdirs.mp hin with h | ⟨k, mk, hgetk, hdirk, _, hnamek⟩
    · exact absurd h (by simp [initState])
    · have hklt := get?_some_lt hgetk
      have hfull : (pre ++ m :: post).get? k = some mk := by
        rw [List.get?_append hklt]
        exact hgetk
      apply hall k mk hfull hdirk
      rw [hnamek, hdn]
  rcases untarStep_cases tc w htc ex pre.length m smid (0 + dirsIn pre)
      hcmid with
    ⟨hk, _, _⟩ | ⟨hk, _, _⟩ | ⟨hk, hin, hst3⟩ |
    ⟨hk, hin, hdc, hst4⟩ | ⟨hk, hin, hdc, hst5⟩
  · rw [hm] at hk
    exact absurd hk (by simp)
  · rw [hm] at hk
    exact absurd hk (by simp)
  · rw [hst3] at hst
    injection hst with h2
    subst h2
    obtain ⟨_, ⟨dl1, hdl1, hdl1b⟩, ⟨ql1, hql1, hql1b⟩⟩ :=
      runMain_shape tc w htc ex post (pre.length+1) (0 + dirsIn pre) smid smf
        hcmid hpost
    subst hs
    have hnq : ∀ e, ¬((pre.length, e) ∈ smf.link_queue) := by
      intro e h
      rw [hql1] at h
      rcases List.mem_append.mp h with h | h
      · rw [hql0] at h
        have := hql0b _ h
        simp at this
      · have := hql1b _ h
        simp at this
    have hmainpos : ∀ ev, ev ∈ smf.events → ¬(Ev.pos ev = pre.length) := by
      intro ev hev
      rw [hdl1] at hev
      rcases List.mem_append.mp hev with h | h
      · rw [hdl0] at h
        have := hdl0b _ h
        omega
      · have := hdl1b _ h
        omega
    refine ⟨hst3, ?_, ?_, ?_, ?_⟩
    · intro h
      rcases List.mem_append.mp h with h | h
      · exact hmainpos _ h (by simp [Ev.pos])
      · rcases List.mem_map.mp h with ⟨pr, _, hpr2⟩
        exact absurd hpr2 (by simp)
    · intro h
      rcases List.mem_append.mp h with h | h
      · exact hmainpos _ h (by simp [Ev.pos])
      · rcases List.mem_map.mp h with ⟨pr, hpr, hpr2⟩
        have hpr1 : pr.1 = pre.length := by
          have := congrArg Ev.pos hpr2
          simpa [Ev.pos] using this
        apply hnq pr.2
        have hpreq : pr = (pre.length, pr.2) := by
          rw [← hpr1]
        rw [← hpreq]
        exact hpr
    · intro h
      rcases List.mem_append.mp h with h | h
      · exact hmainpos _ h (by simp [Ev.pos])
      · rcases List.mem_map.mp h with ⟨pr, _, hpr2⟩
        exact absurd hpr2 (by simp)
    · intro e h
      exact hnq e (by simpa using h)
  · exact absurd hin hnotin
  · exact absurd hin hnotin

/-- C8: in both the main pass and the post-barrier deferred pass, an
`EEXIST` failure from `archive.extract` on a non-directory member is
tolerated — the run continues past the entry — exactly when the member is
a symlink; on any other member (file or hardlink) it propagates. -/
theorem untar_eexist_symlink_only (oc : ExtractOracle) (i : Nat)
    (m : TarEntry) (s : UState)
    (hmain : oc.err i = some EEXIST) (hdef : oc.errD i = some EEXIST) :
    ((∃ s1, extractNonDir oc i m s = .ok s1) ↔ m.issym = true) ∧
    (m.issym = false → extractNonDir oc i m s = .error EEXIST) ∧
    ((∃ s1, runDeferred oc [(i, m)] s = .ok s1) ↔ m.issym = true) ∧
    (m.issym = false → runDeferred oc [(i, m)] s = .error EEXIST) := by
  have hmainok : m.issym = true → ∃ s1, extractNonDir oc i m s = .ok s1 := by
    intro h
    refine ⟨{ s with
        events := s.events ++ [Ev.efile i],
        file_count := s.file_count + 1 }, ?_⟩
    simp [extractNonDir, hmain, h]
  have hmainbad : m.issym = false → extractNonDir oc i m s = .error EEXIST := by
    intro h
    simp [extractNonDir, hmain, h]
  have hdefok : m.issym = true → ∃ s1, runDeferred oc [(i, m)] s = .ok s1 := by
    intro h
    refine ⟨{ s with
        events := s.events ++ [Ev.edeferred i],
        file_count := s.file_count + 1 }, ?_⟩
    rw [runDeferred]
    simp only [hdef, h]
    rw [if_pos (by simp), runDeferred]
  have hdefbad : m.issym = false → runDeferred oc [(i, m)] s = .error EEXIST := by
    intro h
    rw [runDeferred]
    simp only [hdef, h]
    rw [if_neg (by simp)]
  refine ⟨⟨?_, hmainok⟩, hmainbad, ⟨?_, hdefok⟩, hdefbad⟩
  · rintro ⟨s1, h1⟩
    cases hsym : m.issym
    · rw [hmainbad hsym] at h1
      exact absurd h1 (by simp)
    · rfl
  · rintro ⟨s1, h1⟩
    cases hsym : m.issym
    · rw [hdefbad hsym] at h1
      exact absurd h1 (by simp)
    · rfl

/-- Witness for C1: on `exArch` with two workers, worker 1 extracts and
records exactly the second directory entry (`b`, directory ordinal 1,
`1 % 2 = 1`). -/
theorem untar_dir_ownership_witness :
    runWorker 2 1 allExists noErr exArch = .ok w1state ∧
    exArch.get? 1 = some entB ∧ isDirEntry entB = true ∧
    ((Ev.edir 1 ∈ w1state.events ↔
        ((dirCountBefore exArch 1 : Nat) : Int) % 2 = 1) ∧
     (((dirCountBefore exArch 1 : Nat) : Int) % 2 = 1 →
        stripSep entB.name ∈ w1state.my_dirs)) :=
  ⟨rfl, rfl, rfl,
   untar_dir_ownership 2 1 (by omega) (by omega) (by omega) allExists exArch
     w1state rfl 1 entB rfl rfl⟩

/-- Witness for C3: worker 0 of 2 on `exArch` owns `a` and therefore
extracts `a/x` after extracting `a`. -/
theorem untar_child_parent_witness :
    isDirEntry entAX = false ∧
    runMain 2 0 allExists noErr 0 [entA, entB] (initState 2) = .ok w0mid ∧
    runWorker 2 0 allExists noErr ([entA, entB] ++ entAX :: []) = .ok w0state ∧
    (((Ev.efile 2 ∈ w0state.events ∨ Ev.edeferred 2 ∈ w0state.events) ↔
        dirname entAX.name ∈ w0mid.my_dirs) ∧
     (dirname entAX.name ∈ w0mid.my_dirs →
        ∃ k mk, k < 2 ∧ [entA, entB].get? k = some mk ∧
          isDirEntry mk = true ∧ stripSep mk.name = dirname entAX.name ∧
          Ev.edir k ∈ w0state.events ∧
          (evBefore w0state.events (Ev.edir k) (Ev.efile 2) ∨
           evBefore w0state.events (Ev.edir k) (Ev.edeferred 2)))) :=
  ⟨rfl, rfl, rfl,
   untar_child_parent 2 0 (by omega) allExists [entA, entB] [] entAX rfl
     w0mid w0state rfl rfl⟩

/-- Witness for C9: the single worker on `[d/, d/l]` defers the relative
dangling symlink `d/l` to its queue and extracts it only after the
barrier. -/
theorem untar_deferred_link_policy_witness :
    (entL.islnk = true ∨ entL.issym = true) ∧
    runMain 1 0 noneExists noErr 0 [entD] (initState 1) = .ok w9mid ∧
    dirname entL.name ∈ w9mid.my_dirs ∧
    noneExists entL.linkname = false ∧
    runWorker 1 0 noneExists noErr ([entD] ++ entL :: []) = .ok w9state ∧
    ((startsWithSep entL.linkname = true →
       Ev.efile 1 ∈ w9state.events ∧
       Ev.edeferred 1 ∉ w9state.events ∧
       (∀ e, ¬((1, e) ∈ w9state.link_queue))) ∧
     (startsWithSep entL.linkname = false →
       ¬(Ev.efile 1 ∈ w9state.events) ∧
       (1, entL) ∈ w9state.link_queue ∧
       Ev.edeferred 1 ∈ w9state.events)) :=
  ⟨Or.inr rfl, rfl, by decide, rfl, rfl,
   untar_deferred_link_policy 1 0 (by omega) noneExists [entD] [] entL
     (Or.inr rfl) w9mid w9state rfl (by decide) rfl rfl⟩

/-- Witness for C10: the single worker on `[d/, x]` skips the top-level
file `x` entirely — the step at its position is the identity. -/
theorem untar_toplevel_nondir_skipped_witness :
    isDirEntry entTop = false ∧
    dirname entTop.name = "" ∧
    runMain 1 0 allExists noErr 0 [entD] (initState 1) = .ok w10state ∧
    runWorker 1 0 allExists noErr ([entD] ++ entTop :: []) = .ok w10state ∧
    (untarStep 1 0 allExists noErr 1 entTop w10state = .ok w10state ∧
     ¬(Ev.efile 1 ∈ w10state.events) ∧
     ¬(Ev.edeferred 1 ∈ w10state.events) ∧
     ¬(Ev.edir 1 ∈ w10state.events) ∧
     (∀ e, ¬((1, e) ∈ w10state.link_queue))) :=
  ⟨rfl, rfl, rfl, rfl,
   untar_toplevel_nondir_skipped 1 0 (by omega) allExists [entD] [] entTop
     rfl rfl
     (by
       intro k mk hget hdir
       match k with
       | 0 =>
         simp only [List.cons_append, List.nil_append, List.get?_cons_zero,
           Option.some.injEq] at hget
         subst hget
         decide
       | 1 =>
         simp only [List.cons_append, List.nil_append, List.get?_cons_succ,
           List.get?_cons_zero, Option.some.injEq] at hget
         subst hget
         exact absurd hdir (by decide)
       | n+2 =>
         simp only [List.cons_append, List.nil_append,
           List.get?_cons_succ] at hget
         simp at hget)
     w10state w10state rfl rfl⟩

/-- Witness for C8: with every extract call failing `EEXIST`, the symlink
member is tolerated at both sites and a file member is fatal at both. -/
theorem untar_eexist_symlink_only_witness :
    eexOc.err 0 = some EEXIST ∧ eexOc.errD 0 = some EEXIST ∧
    (((∃ s1, extractNonDir eexOc 0 symEnt (initState 1) = .ok s1) ↔
        symEnt.issym = true) ∧
     (symEnt.issym = false →
        extractNonDir eexOc 0 symEnt (initState 1) = .error EEXIST) ∧
     ((∃ s1, runDeferred eexOc [(0, symEnt)] (initState 1) = .ok s1) ↔
        symEnt.issym = true) ∧
     (symEnt.issym = false →
        runDeferred eexOc [(0, symEnt)] (initState 1) = .error EEXIST)) :=
  ⟨rfl, rfl,
   untar_eexist_symlink_only eexOc 0 symEnt (initState 1) rfl rfl⟩

end PUntar
